import Mathlib

/-!
# A shallow embedding of `mtproto.go`

The Go source keeps the receive buffer, its size and a cursor on the connection
object `MTProto`; every decoder is a method that mutates the cursor and returns a
pair `(value, error)`.  Here each method is a function from the receiver state
to `Option (Ret α)`:

* `none` is a Go run-time panic (slice bounds out of range, index out of range,
  `make` with a negative length or one above the allocation limit);
* `some r` is a normal return, with `r.m` the receiver state after the call,
  `r.val` the first result and `r.err` the second (`none` is Go `nil`).

Conventions.

* Go `int` is taken to be 64 bits wide; every `+`, `-`, `++`, `--` that involves
  the fields `off`, `size` or `level` goes through `int64`, the two-complement
  wrap.  Locals that hold a byte value, a 24-bit length, a padding or the length
  of a slice are non-negative and far below 2^63; they are `Nat`.
* A byte is `Fin 256`.  `uint32`, `uint64` values are `Nat`, `int32` values are `Int`.
* A Go slice is a `List`; the nil slice is `[]` (the source never compares a slice
  with `nil`, and `len`, `range`, `append`, `bytes.Equal` do not tell them apart).
  The capacity of `buf` is its length (`make([]byte, m.size)` in `Read`).
* `*big.Int` is `Option Int` (`none` is the nil pointer).
* `interface{}` in field `data` is `Option TL_resPQ`: `TL_resPQ` is the only type
  the source ever stores there.
* The fields `g_ab`, `serverSalt` and `conn` of the struct are left out: no
  function embedded here reads or writes the first two, and the connection is
  passed explicitly, as the chunks of bytes still to be received.
-/

namespace Mtproto

/-- One octet. -/
abbrev Byte := Fin 256

/-! ## Constants (lines 14-40) -/

def vector : Nat := 0x1cb5c415
def req_pq : Nat := 0x60469778
def resPQ : Nat := 0x05162463
def server_DH_params_ok : Nat := 0xd0e8075c
def server_DH_params_fail : Nat := 0x79cb045d
def server_DH_inner_data : Nat := 0xb5890dba
def dh_gen_ok : Nat := 0x3bcbf734
def dh_gen_retry : Nat := 0x46dc1fb9
def dh_gen_fail : Nat := 0xa69dae02

/-! ## Data model (lines 42-64) -/

/-- Record `TL_resPQ` of the source. -/
structure TL_resPQ where
  nonce : List Byte
  server_nonce : List Byte
  pq : Option Int
  fingerprints : List Nat
  deriving DecidableEq, Repr

/-- Receiver state `MTProto` of the source. -/
structure MTProto where
  encrypted : Bool
  buf : List Byte
  size : Int
  off : Int
  level : Int
  messageId : Nat
  seqNo : Int
  data : Option TL_resPQ
  deriving DecidableEq, Repr

/-- The error values the source builds.  Each constructor stands for one message
text; constructors with arguments carry the values formatted into the message. -/
inductive Err where
  /-- an error returned by the TCP connection -/
  | conn
  /-- "DecodeLong: короткий пакет" -/
  | shortLong
  /-- "DecodeInt: короткий пакет" -/
  | shortInt
  /-- "DecodeUInt: короткий пакет" -/
  | shortUInt
  /-- "DecodeBytes: короткий пакет" -/
  | shortBytes
  /-- "DecodeStringBytes: короткий пакет" (lines 317 and 324) -/
  | shortString
  /-- "DecodeStringBytes: короткий пакет (size)" -/
  | shortStringSize
  /-- "DecodeStringBytes: короткий пакет (padding)" -/
  | shortStringPadding
  /-- "DecodeVectorLong: Неправильный конструктор" -/
  | vectorConstructor
  /-- "DecodeVectorLong: Неправильный размер" -/
  | vectorSize
  /-- "Неизвестный конструктор: %08x" -/
  | unknownConstructor (constructor : Nat)
  /-- "Ошибка: %s" with the hexadecimal dump of the 4-byte frame -/
  | serverError (frame : List Byte)
  /-- "Слишком маленький пакет: %d байт" -/
  | tooSmall (size : Int)
  /-- "Заявленная длина сообщения не совпадает: %d (должна быть %d)" -/
  | lengthMismatch (messageLen : Int) (expected : Int)
  /-- "Невалидные битые message_id: %d" -/
  | invalidMessageId (mod : Nat)
  /-- "Handshake: ожидался TL_resPQ" -/
  | expectedResPQ
  /-- "Handshake: не совпадает nonce" -/
  | nonceMismatch
  /-- "Handshake: нет отпечатка нужного ключа" -/
  | noFingerprint
  deriving DecidableEq, Repr

/-- A normal return of a method: receiver state after the call, first result,
second result (the error, `none` for nil). -/
structure Ret (α : Type) where
  m : MTProto
  val : α
  err : Option Err
  deriving DecidableEq, Repr

/-! ## Go primitives -/

/-- Wrap of a mathematical integer to Go `int` (64 bits, two-complement). -/
def int64 (x : Int) : Int :=
  (x + 9223372036854775808) % 18446744073709551616 - 9223372036854775808

/-- Conversion `int32(x)`: wrap to 32 bits, two-complement. -/
def int32 (x : Int) : Int :=
  (x + 2147483648) % 4294967296 - 2147483648

/-- Largest allocation the Go runtime grants on a 64-bit platform (2^48 bytes);
no slice is longer. -/
def maxAlloc : Nat := 281474976710656

/-- Slice expression `buf[lo:hi]`; `none` is the bounds panic. -/
def slice (buf : List Byte) (lo hi : Int) : Option (List Byte) :=
  if 0 ≤ lo ∧ lo ≤ hi ∧ hi ≤ (buf.length : Int) then
    some ((buf.drop lo.toNat).take (hi - lo).toNat)
  else none

/-- Index expression `buf[i]`; `none` is the bounds panic. -/
def index (buf : List Byte) (i : Int) : Option Byte :=
  if 0 ≤ i then buf[i.toNat]? else none

/-- Value of a byte sequence read least significant byte first. -/
def littleEndian : List Byte → Nat
  | [] => 0
  | b :: bs => b.val + 256 * littleEndian bs

/-- Library function `binary.LittleEndian.Uint64`. -/
def Uint64 (b : List Byte) : Nat := littleEndian (b.take 8)

/-- Library function `binary.LittleEndian.Uint32`. -/
def Uint32 (b : List Byte) : Nat := littleEndian (b.take 4)

/-- Value of a byte sequence read most significant byte first. -/
def bigEndian (bs : List Byte) : Nat :=
  bs.foldl (fun acc b => acc * 256 + b.val) 0

/-- Library function `(*big.Int).SetBytes`: the big-endian unsigned value. -/
def SetBytes (bs : List Byte) : Int := (bigEndian bs : Nat)

/-! ## Fixed-width decoders (lines 276-311) -/

/-- Method `DecodeLong` (lines 276-283). -/
def DecodeLong (m : MTProto) : Option (Ret Nat) :=
  if int64 (m.off + 8) > m.size then
    some ⟨m, 0, some Err.shortLong⟩
  else
    match slice m.buf m.off (int64 (m.off + 8)) with
    | none => none
    | some s => some ⟨{ m with off := int64 (m.off + 8) }, Uint64 s, none⟩

/-- Method `DecodeInt` (lines 285-292). -/
def DecodeInt (m : MTProto) : Option (Ret Int) :=
  if int64 (m.off + 4) > m.size then
    some ⟨m, 0, some Err.shortInt⟩
  else
    match slice m.buf m.off (int64 (m.off + 4)) with
    | none => none
    | some s => some ⟨{ m with off := int64 (m.off + 4) }, int32 (Uint32 s), none⟩

/-- Method `DecodeUInt` (lines 294-301). -/
def DecodeUInt (m : MTProto) : Option (Ret Nat) :=
  if int64 (m.off + 4) > m.size then
    some ⟨m, 0, some Err.shortUInt⟩
  else
    match slice m.buf m.off (int64 (m.off + 4)) with
    | none => none
    | some s => some ⟨{ m with off := int64 (m.off + 4) }, Uint32 s, none⟩

/-- Method `DecodeBytes` (lines 303-311).  `make([]byte, size)` panics on a
negative `size` and on a `size` above the allocation limit. -/
def DecodeBytes (m : MTProto) (size : Int) : Option (Ret (List Byte)) :=
  if int64 (m.off + size) > m.size then
    some ⟨m, [], some Err.shortBytes⟩
  else if size < 0 ∨ (maxAlloc : Int) < size then none
  else
    match slice m.buf m.off (int64 (m.off + size)) with
    | none => none
    | some x => some ⟨{ m with off := int64 (m.off + size) }, x, none⟩

/-! ## Strings and big integers (lines 313-356) -/

/-- Lines 331-343 of `DecodeStringBytes`: copy `size` bytes, then skip `padding`.
Both locals are non-negative `int`s below 2^24, hence `Nat`. -/
def stringBody (m : MTProto) (size padding : Nat) : Option (Ret (List Byte)) :=
  if int64 (m.off + size) > m.size then
    some ⟨m, [], some Err.shortStringSize⟩
  else
    match slice m.buf m.off (int64 (m.off + size)) with
    | none => none
    | some x =>
      let m1 : MTProto := { m with off := int64 (m.off + size) }
      if int64 (m1.off + padding) > m1.size then
        some ⟨m1, [], some Err.shortStringPadding⟩
      else
        some ⟨{ m1 with off := int64 (m1.off + padding) }, x, none⟩

/-- Method `DecodeStringBytes` (lines 313-344). -/
def DecodeStringBytes (m : MTProto) : Option (Ret (List Byte)) :=
  if int64 (m.off + 1) > m.size then
    some ⟨m, [], some Err.shortString⟩
  else
    match index m.buf m.off with
    | none => none
    | some b =>
      let m1 : MTProto := { m with off := int64 (m.off + 1) }
      if b.val = 254 then
        if int64 (m1.off + 3) > m1.size then
          some ⟨m1, [], some Err.shortString⟩
        else
          match index m1.buf m1.off, index m1.buf (int64 (m1.off + 1)),
              index m1.buf (int64 (m1.off + 2)) with
          | some b0, some b1, some b2 =>
            let size : Nat := b0.val ||| b1.val <<< 8 ||| b2.val <<< 16
            stringBody { m1 with off := int64 (m1.off + 3) } size ((4 - size % 4) &&& 3)
          | _, _, _ => none
      else
        stringBody m1 b.val ((4 - (b.val + 1) % 4) &&& 3)

/-- Method `DecodeBigInt` (lines 346-356): a zero byte is put in front of the
string bytes before `SetBytes`. -/
def DecodeBigInt (m : MTProto) : Option (Ret (Option Int)) :=
  match DecodeStringBytes m with
  | none => none
  | some r =>
    match r.err with
    | some e => some ⟨r.m, none, some e⟩
    | none => some ⟨r.m, some (SetBytes ((0 : Byte) :: r.val)), none⟩

/-! ## Vectors (lines 358-384) -/

/-- The loop of lines 375-382 with `n = size - i` iterations left; `x` holds the
elements `x[0..i)` written so far. -/
def vectorLoop : Nat → MTProto → List Nat → Option (Ret (List Nat))
  | 0, m, x => some ⟨m, x, none⟩
  | n + 1, m, x =>
    match DecodeLong m with
    | none => none
    | some r =>
      match r.err with
      | some e => some ⟨r.m, [], some e⟩
      | none => vectorLoop n r.m (x ++ [r.val])

/-- Method `DecodeVectorLong` (lines 358-384). -/
def DecodeVectorLong (m : MTProto) : Option (Ret (List Nat)) :=
  match DecodeUInt m with
  | none => none
  | some rc =>
    match rc.err with
    | some e => some ⟨rc.m, [], some e⟩
    | none =>
      if rc.val ≠ vector then
        some ⟨rc.m, [], some Err.vectorConstructor⟩
      else
        match DecodeInt rc.m with
        | none => none
        | some rs =>
          match rs.err with
          | some e => some ⟨rs.m, [], some e⟩
          | none =>
            if rs.val ≤ 0 then
              some ⟨rs.m, [], some Err.vectorSize⟩
            else
              vectorLoop rs.val.toNat rs.m []

/-! ## Records (lines 246-274) -/

/-- Method `DecodePacket` (lines 246-274).  In the `resPQ` case the four field
decoders run one after the other, each on the state the previous one left, and
only the error of the last one is looked at. -/
def DecodePacket (m : MTProto) : Option (Ret Unit) :=
  match DecodeUInt m with
  | none => none
  | some rc =>
    match rc.err with
    | some e => some ⟨rc.m, (), some e⟩
    | none =>
      let m1 : MTProto := { rc.m with level := int64 (rc.m.level + 1) }
      if rc.val = resPQ then
        match DecodeBytes m1 16 with
        | none => none
        | some rn =>
          match DecodeBytes rn.m 16 with
          | none => none
          | some rs =>
            match DecodeBigInt rs.m with
            | none => none
            | some rp =>
              match DecodeVectorLong rp.m with
              | none => none
              | some rf =>
                let m2 : MTProto :=
                  { rf.m with data := some ⟨rn.val, rs.val, rp.val, rf.val⟩ }
                match rf.err with
                | some e => some ⟨m2, (), some e⟩
                | none => some ⟨{ m2 with level := int64 (m2.level - 1) }, (), none⟩
      else
        some ⟨m1, (), some (Err.unknownConstructor rc.val)⟩

/-! ## Encoders

`EncodeInt`, `EncodeUInt`, `EncodeLong`, `GenerateMessageId` and `GenerateNonce`
are called by the source file, but their bodies are not part of it.  The value
of `GenerateMessageId()` and of `GenerateNonce(16)` is an argument of the
functions below. -/

/-- Modelled from the spec: the bodies of `EncodeInt`, `EncodeUInt` and
`EncodeLong` are missing; the wire-format table gives "4 bytes LE" and
"8 bytes LE".  `encodeLE n v` is the `n` low-order bytes of `v`, least
significant first. -/
def encodeLE : Nat → Nat → List Byte
  | 0, _ => []
  | n + 1, v => ⟨v % 256, Nat.mod_lt v (by decide)⟩ :: encodeLE n (v / 256)

/-- Modelled from the spec: missing function `EncodeLong` (uint64, 8 bytes LE). -/
def EncodeLong (v : Nat) : List Byte := encodeLE 8 v

/-- Modelled from the spec: missing function `EncodeUInt` (uint32, 4 bytes LE). -/
def EncodeUInt (v : Nat) : List Byte := encodeLE 4 v

/-- Modelled from the spec: missing function `EncodeInt` (int32, 4 bytes LE, the
two-complement bit pattern). -/
def EncodeInt (v : Int) : List Byte := encodeLE 4 (v % 4294967296).toNat

/-- Modelled from the spec: the TL string encoder is missing from the source.
The layout is the one the specification words: the single length byte `n` if
`n < 254`, otherwise `0xFE` followed by `n` as 3 little-endian bytes; then the
bytes of `s`; then zero bytes up to the next multiple of 4. -/
def encodeTLString (s : List Byte) : List Byte :=
  let hdr : List Byte :=
    if s.length < 254 then [⟨s.length % 256, Nat.mod_lt _ (by decide)⟩]
    else (254 : Byte) :: encodeLE 3 s.length
  hdr ++ s ++ List.replicate ((4 - (hdr.length + s.length) % 4) % 4) (0 : Byte)

/-! ## Sending (lines 92-119) -/

/-- Lines 106-111 of `SendPacket`: the length in 4-byte words is put in front of
the payload `x`, in one byte or in four. -/
def addLength (x : List Byte) : List Byte :=
  let len : Nat := x.length / 4
  if len < 127 then
    (⟨len % 256, Nat.mod_lt _ (by decide)⟩ : Byte) :: x
  else
    EncodeInt (int32 ((len <<< 8 ||| 127 : Nat) : Int)) ++ x

/-- Method `SendPacket` (lines 92-119): the bytes handed to `conn.Write`.
`messageId` is the value `GenerateMessageId()` returns. -/
def SendPacket (m : MTProto) (messageId : Nat) (msg : List Byte) : List Byte :=
  let x : List Byte :=
    if m.encrypted then []
    else EncodeLong 0 ++ EncodeLong messageId ++ EncodeInt (int32 (msg.length : Int)) ++ msg
  addLength x

/-! ## Receiving (lines 166-239)

The connection is the sequence of chunks in which the bytes of the peer become
available to the client.  A call `conn.Read(p)` with `len(p) > 0` blocks until
bytes are available and then delivers bytes of the first non-empty chunk only:
the whole chunk when it fits in `p`, and otherwise its first `len(p)` bytes, the
rest of the chunk staying in front.  So a read may return fewer bytes than asked
for although more are to come (a short read), and every way in which a stream
can be delivered is some sequence of chunks.  The call fails when no byte is
left. -/

/-- The bytes still to be read from the connection, in the chunks in which they
arrive. -/
abbrev Conn := List (List Byte)

/-- Call `conn.Read(p)` with `len(p) = n`: the bytes delivered and the rest of
the connection; `none` is a non-nil error. -/
def connRead : Conn → Nat → Option (List Byte × Conn)
  | [], n => if n = 0 then some ([], []) else none
  | [] :: cs, n => if n = 0 then some ([], [] :: cs) else connRead cs n
  | (c :: t) :: cs, n =>
    if n = 0 then some ([], (c :: t) :: cs)
    else some ((c :: t).take n, (c :: t).drop n :: cs)

/-- Destination `dst` after `src` has been written into it from position `pos`. -/
def overwrite (dst : List Byte) (pos : Nat) (src : List Byte) : List Byte :=
  dst.take pos ++ src ++ dst.drop (pos + src.length)

/-- Lines 170-185 of `Read`: the frame length read off the connection (`none`
when a `conn.Read` fails), and the rest of the connection.  The number of bytes
a read delivered is not looked at: the bytes of `b` that were not written are
zero. -/
def readLength (conn : Conn) : Option Nat × Conn :=
  match connRead conn 1 with
  | none => (none, conn)
  | some (b, conn1) =>
    let b : List Byte := overwrite (List.replicate 1 0) 0 b
    if (b.getD 0 0).val < 127 then
      (some ((b.getD 0 0).val <<< 2), conn1)
    else
      match connRead conn1 3 with
      | none => (none, conn1)
      | some (b, conn2) =>
        let b : List Byte := overwrite (List.replicate 3 0) 0 b
        (some ((b.getD 0 0).val ||| (b.getD 1 0).val <<< 8 ||| (b.getD 2 0).val <<< 16), conn2)

/-- The loop of lines 189-195 of `Read`, with `size = m.size` and `left` bytes
still to read.  Every turn that does not fail delivers at least one byte, so
`fuel = left` turns are enough. -/
def readLoop : Nat → MTProto → Nat → Conn → Nat → MTProto × Conn × Option Err
  | 0, m, _, conn, _ => (m, conn, none)
  | fuel + 1, m, size, conn, left =>
    if left = 0 then (m, conn, none)
    else
      match connRead conn left with
      | none => (m, conn, some Err.conn)
      | some (bs, rest) =>
        readLoop fuel { m with buf := overwrite m.buf (size - left) bs } size rest
          (left - bs.length)

/-- Lines 198-238 of `Read`: what is done with a frame once it is in `m.buf`
(`m.size` set, `m.off = 0`).  `conn` is the rest of the connection, returned as
the value. -/
def readFrame (m : MTProto) (conn : Conn) : Option (Ret Conn) :=
  if m.size = 4 then
    some ⟨m, conn, some (Err.serverError m.buf)⟩
  else if m.size ≤ 8 then
    some ⟨m, conn, some (Err.tooSmall m.size)⟩
  else
    match DecodeLong m with
    | none => none
    | some ra =>
      if ra.val = 0 then
        match DecodeLong ra.m with
        | none => none
        | some ri =>
          let m1 : MTProto := { ri.m with messageId := ri.val }
          match ri.err with
          | some e => some ⟨m1, conn, some e⟩
          | none =>
            match DecodeInt m1 with
            | none => none
            | some rl =>
              match rl.err with
              | some e => some ⟨rl.m, conn, some e⟩
              | none =>
                if rl.val ≠ int64 (rl.m.size - 20) then
                  some ⟨rl.m, conn,
                    some (Err.lengthMismatch rl.val (int64 (rl.m.size - 20)))⟩
                else
                  let mod : Nat := rl.m.messageId &&& 3
                  if mod ≠ 1 ∧ mod ≠ 3 then
                    some ⟨rl.m, conn, some (Err.invalidMessageId mod)⟩
                  else
                    match DecodePacket { rl.m with seqNo := 0, level := 0 } with
                    | none => none
                    | some rp => some ⟨rp.m, conn, rp.err⟩
      else
        some ⟨ra.m, conn, none⟩

/-- Lines 170-196 of `Read`: the frame is received.  The result is the state with
the frame in `buf`, its length in `size` and the cursor at 0, the rest of the
connection, and the error of the connection if a read failed. -/
def receive (m : MTProto) (conn : Conn) : MTProto × Conn × Option Err :=
  match readLength conn with
  | (none, conn1) => (m, conn1, some Err.conn)
  | (some size, conn1) =>
    let m1 : MTProto := { m with size := size, buf := List.replicate size 0 }
    match readLoop size m1 size conn1 size with
    | (m2, conn2, some e) => (m2, conn2, some e)
    | (m2, conn2, none) => ({ m2 with off := 0 }, conn2, none)

/-- Method `Read` (lines 166-239).  The value of the result is the rest of the
connection. -/
def Read (m : MTProto) (conn : Conn) : Option (Ret Conn) :=
  match receive m conn with
  | (m1, conn1, some e) => some ⟨m1, conn1, some e⟩
  | (m1, conn1, none) => readFrame m1 conn1

/-! ## Handshake (lines 121-164) -/

/-- The loop of lines 146-152: is the trusted fingerprint in the list. -/
def findFingerprint : List Nat → Bool
  | [] => false
  | b :: rest => if b = 14101943622620965665 then true else findFingerprint rest

/-- Lines 139-155 of `Handshake`: the checks on the record `Read` left in
`m.data`, against the nonce that was sent. -/
def checkResPQ (nonce : List Byte) (data : Option TL_resPQ) : Option Err :=
  match data with
  | none => some Err.expectedResPQ
  | some res =>
    if nonce ≠ res.nonce then some Err.nonceMismatch
    else if findFingerprint res.fingerprints = false then some Err.noFingerprint
    else none

/-- Lines 126-128 of `Handshake`: the body of the `req_pq` message. -/
def reqPQ (nonce : List Byte) : List Byte := EncodeUInt req_pq ++ nonce

/-- Method `Handshake` (lines 121-164).  `nonce` is the value of
`GenerateNonce(16)`, `writeErr` the error `conn.Write` returns for the bytes
`SendPacket m messageId (reqPQ nonce)`, `conn` the bytes the peer sends back, in
the chunks in which they arrive. -/
def Handshake (m : MTProto) (nonce : List Byte) (writeErr : Option Err)
    (conn : Conn) : Option (Ret Conn) :=
  match writeErr with
  | some e => some ⟨m, conn, some e⟩
  | none =>
    match Read m conn with
    | none => none
    | some r =>
      match r.err with
      | some e => some ⟨r.m, r.val, some e⟩
      | none => some ⟨r.m, r.val, checkResPQ nonce r.m.data⟩


/-! ## Vocabulary of the statements -/

/-- The `n` bytes of `buf` that start at position `off`. -/
def bytesAt (buf : List Byte) (off n : Nat) : List Byte := (buf.drop off).take n

/-- The state `m` with the cursor moved forward by `k`. -/
def advance (m : MTProto) (k : Int) : MTProto := { m with off := m.off + k }

/-- The `n` little-endian 64-bit values stored in `buf` from position `off` on. -/
def longsAt (buf : List Byte) (off : Nat) : Nat → List Nat
  | 0 => []
  | n + 1 => littleEndian (bytesAt buf off 8) :: longsAt buf (off + 8) n

/-- The constructor tag `DecodeVectorLong` reads: the 4 bytes at the cursor. -/
def vecTag (m : MTProto) : Nat := littleEndian (bytesAt m.buf m.off.toNat 4)

/-- The count `DecodeVectorLong` reads: the 4 bytes after the tag, as a signed
32-bit value. -/
def vecCount (m : MTProto) : Int := int32 (littleEndian (bytesAt m.buf (m.off.toNat + 4) 4))

/-- Number of header bytes of the TL string whose first byte is `b`, as the
decoder takes it: four for the marker 254, one otherwise. -/
def strHdr (b : Byte) : Nat := if b.val = 254 then 4 else 1

/-- Length of the TL string at position `off` whose first byte is `b`, as the
decoder takes it: the three bytes after a marker 254, little-endian, and `b`
itself otherwise. -/
def strLen (buf : List Byte) (off : Nat) (b : Byte) : Nat :=
  if b.val = 254 then littleEndian (bytesAt buf (off + 1) 3) else b.val

/-- Number of padding bytes after `k` bytes of header and string. -/
def strPad (k : Nat) : Nat := (4 - k % 4) % 4

/-- The receiver state once `Read` has stored `frame` in the buffer and reset the
cursor (line 196). -/
def received (m : MTProto) (frame : List Byte) : MTProto :=
  { m with size := (frame.length : Int), buf := frame, off := 0 }

/-- The receiver state once `Read` has stored `frame`, moved the cursor to `off`
and assigned `messageId`; the fields `level`, `seqNo`, `data` and `encrypted`
are those of `m`. -/
def headerRead (m : MTProto) (frame : List Byte) (off : Int) (messageId : Nat) : MTProto :=
  { m with size := (frame.length : Int), buf := frame, off := off, messageId := messageId }

/-- The receiver state `Read` hands to `DecodePacket` (line 228): the frame in the
buffer, the cursor after the 20-byte header, `seqNo` and `level` reset. -/
def bodyStart (m : MTProto) (frame : List Byte) (messageId : Nat) : MTProto :=
  { m with size := (frame.length : Int), buf := frame, off := 20, messageId := messageId,
           seqNo := 0, level := 0 }

/-- Field `authKeyId` of a frame: its first 8 bytes, little-endian. -/
def frameAuthKeyId (frame : List Byte) : Nat := littleEndian (bytesAt frame 0 8)

/-- Field `messageId` of a frame: bytes 8 to 15, little-endian. -/
def frameMessageId (frame : List Byte) : Nat := littleEndian (bytesAt frame 8 8)

/-- Field `bodyLength` of a frame: bytes 16 to 19, as a signed 32-bit value. -/
def frameBodyLength (frame : List Byte) : Int := int32 (littleEndian (bytesAt frame 16 4))

/-! ## Concrete inputs -/

/-- A `resPQ` record whose `pq` string announces 200 bytes where 16 are left: the
tag, two 16-byte nonces, the length byte 200, then a vector holding the one
fingerprint 14101943622620965665. -/
def maskedRecord : List Byte :=
  EncodeUInt resPQ ++ List.replicate 16 0x11 ++ List.replicate 16 0x22 ++ [200]
    ++ EncodeUInt vector ++ EncodeInt 1 ++ EncodeLong 14101943622620965665

/-- The bytes of a connection that delivers `maskedRecord` in one frame: length
header `7f 49 00 00` (73 bytes), authKeyId 0, messageId 5, bodyLength 53. -/
def maskedStream : List Byte :=
  [0x7f, 73, 0, 0] ++ EncodeLong 0 ++ EncodeLong 5 ++ EncodeInt 53 ++ maskedRecord

/-- A buffer that starts with the byte 255, then the three bytes `01 00 00`, then
252 more bytes. -/
def lengthByte255 : List Byte :=
  [255, 1, 0, 0] ++ List.replicate 252 0x41

/-- A frame of 24 bytes: authKeyId 0, messageId 2, bodyLength 4, then 4 bytes. -/
def evenIdFrame : List Byte :=
  [0, 0, 0, 0, 0, 0, 0, 0, 2, 0, 0, 0, 0, 0, 0, 0, 4, 0, 0, 0, 0, 0, 0, 0]

/-- A frame of 16 bytes: authKeyId 0, messageId 2, and nothing after them. -/
def shortEvenIdFrame : List Byte :=
  [0, 0, 0, 0, 0, 0, 0, 0, 2, 0, 0, 0, 0, 0, 0, 0]

/-- A frame of 24 bytes: authKeyId 0, messageId 2, bodyLength 5, then 4 bytes. -/
def mismatchedEvenIdFrame : List Byte :=
  [0, 0, 0, 0, 0, 0, 0, 0, 2, 0, 0, 0, 0, 0, 0, 0, 5, 0, 0, 0, 0, 0, 0, 0]

/-- A well-formed `resPQ` record: tag, nonce of sixteen `11`, server nonce of sixteen
`22`, the 8-byte `pq` string `17 ed 48 94 1a 08 f9 81` with its 3 padding bytes,
and a vector holding the one fingerprint 14101943622620965665. -/
def goodRecord : List Byte :=
  EncodeUInt resPQ ++ List.replicate 16 0x11 ++ List.replicate 16 0x22
    ++ [8, 0x17, 0xed, 0x48, 0x94, 0x1a, 0x08, 0xf9, 0x81, 0, 0, 0]
    ++ EncodeUInt vector ++ EncodeInt 1 ++ EncodeLong 14101943622620965665

/-- The frame that carries `goodRecord`: authKeyId 0, messageId 1, bodyLength 64. -/
def goodFrame : List Byte :=
  EncodeLong 0 ++ EncodeLong 1 ++ EncodeInt 64 ++ goodRecord

/-- The bytes of a connection that delivers `goodFrame`: 21 words. -/
def goodStream : List Byte := [21] ++ goodFrame

/-- The record `goodRecord` holds. -/
def goodResPQ : TL_resPQ :=
  ⟨List.replicate 16 0x11, List.replicate 16 0x22, some 1724114033281923457,
    [14101943622620965665]⟩

/-- What `Read` returns on `goodStream`, delivered in one chunk, from the zero
state: the whole frame consumed, `messageId` 1, the record stored, an empty chunk
left on the connection, no error. -/
def goodRead : Ret Conn :=
  ⟨{ encrypted := false, buf := goodFrame, size := 84, off := 84, level := 0,
     messageId := 1, seqNo := 0, data := some goodResPQ }, [[]], none⟩

/-- The message body of 580 zero bytes; with the 20-byte header the payload is
600 bytes, 150 words. -/
def longMessage : List Byte := List.replicate 580 0

/-- Well-formed receiver state: the cursor lies inside the buffer, `size` is the
buffer length, and the buffer is one the runtime can allocate. -/
def WF (m : MTProto) : Prop :=
  0 ≤ m.off ∧ m.off ≤ m.size ∧ m.size = (m.buf.length : Int) ∧ m.buf.length ≤ maxAlloc

instance (m : MTProto) : Decidable (WF m) := by unfold WF; infer_instance

/-- A state holding `buf` with the cursor at `off`; the other fields are at their
Go zero values. -/
def mkState (buf : List Byte) (off : Nat) : MTProto :=
  { encrypted := false, buf := buf, size := buf.length, off := off, level := 0,
    messageId := 0, seqNo := 0, data := none }

/-- The cursor invariant after a call that started in `m` and ended in `m'`:
the state is well formed, the cursor has not moved backwards, and the buffer and
its size are the same. -/
def CursorStep (m m' : MTProto) : Prop :=
  WF m' ∧ m.off ≤ m'.off ∧ m'.buf = m.buf ∧ m'.size = m.size

/-- The constructor tag `DecodePacket` reads: the 4 bytes at the cursor,
little-endian. -/
def packetTag (m : MTProto) : Nat := littleEndian (bytesAt m.buf m.off.toNat 4)

/-- The state of `DecodePacket` after lines 249-254: the tag is read and `level`
is incremented. -/
def enter (m : MTProto) : MTProto :=
  { m with off := m.off + 4, level := int64 (m.level + 1) }

/-- The state after the assignment `m.data = d` of line 262. -/
def store (m : MTProto) (d : TL_resPQ) : MTProto := { m with data := some d }

/-- The state after `m.level--` of line 271. -/
def leave (m : MTProto) : MTProto := { m with level := int64 (m.level - 1) }

/-- The non-negative integer whose big-endian magnitude is `b_0 .. b_{n-1}`:
the sum of `b_i * 256 ^ (n - 1 - i)`, zero for the empty sequence. -/
def beValue : List Byte → Nat
  | [] => 0
  | b :: bs => b.val * 256 ^ bs.length + beValue bs

/-- The length header for a payload of `w` words as the specification words it:
the single byte `w` when `w < 127`, otherwise `0x7f` followed by `w` as three
little-endian bytes. -/
def wordHeader (w : Nat) : List Byte :=
  if w < 127 then [⟨w % 256, Nat.mod_lt _ (by decide)⟩]
  else [0x7f, ⟨w % 256, Nat.mod_lt _ (by decide)⟩, ⟨w / 256 % 256, Nat.mod_lt _ (by decide)⟩,
    ⟨w / 65536 % 256, Nat.mod_lt _ (by decide)⟩]

/-- Position `i` of the buffer of `m` is a padding position of the TL string at
the cursor: it lies after the header and the string bytes and before the next
multiple of 4. -/
def PaddingPos (m : MTProto) (i : Nat) : Prop :=
  ∃ b, m.buf[m.off.toNat]? = some b ∧
    m.off.toNat + strHdr b + strLen m.buf m.off.toNat b ≤ i ∧
    i < m.off.toNat + strHdr b + strLen m.buf m.off.toNat b
          + strPad (strHdr b + strLen m.buf m.off.toNat b)

/-- A state on an 8-byte buffer with the cursor at 1. -/
def overflowState : MTProto := mkState [0, 0, 0, 0, 0, 0, 0, 0] 1

/-- A 12-byte frame whose `authKeyId` is 1. -/
def encryptedFrame : List Byte := [1, 0, 0, 0, 0, 0, 0, 0, 9, 9, 9, 9]

/-- The lower-case hexadecimal digit of `d < 16`. -/
def hexDigit (d : Nat) : Char :=
  if d < 10 then Char.ofNat (48 + d) else Char.ofNat (87 + d)

/-- The verb `%08x` applied to a `uint32`: eight hexadecimal digits, the most
significant first. -/
def hex08 (c : Nat) : List Char :=
  [hexDigit (c / 268435456 % 16), hexDigit (c / 16777216 % 16), hexDigit (c / 1048576 % 16),
    hexDigit (c / 65536 % 16), hexDigit (c / 4096 % 16), hexDigit (c / 256 % 16),
    hexDigit (c / 16 % 16), hexDigit (c % 16)]

/-- The message of the error of line 268 for the constructor `c`. -/
def unknownConstructorText (c : Nat) : String :=
  "Неизвестный конструктор: " ++ String.mk (hex08 c)

/-- A buffer that holds the four bytes `78 56 34 12`, the tag `0x12345678`. -/
def unknownTagBuffer : List Byte := [0x78, 0x56, 0x34, 0x12]

/-- What `DecodePacket` returns on `goodRecord` from the zero state. -/
def goodDecoded : Ret Unit :=
  ⟨{ encrypted := false, buf := goodRecord, size := 64, off := 64, level := 0,
     messageId := 0, seqNo := 0, data := some goodResPQ }, (), none⟩

/-- The string `41` followed by two zero padding bytes. -/
def zeroPadded : MTProto := mkState [0x01, 0x41, 0x00, 0x00] 0

/-- The string `41` followed by the padding bytes `ff ff`. -/
def onesPadded : MTProto := mkState [0x01, 0x41, 0xff, 0xff] 0

/-! # Lemmas -/

theorem int64_of_bounds {x : Int} (h1 : -9223372036854775808 ≤ x)
    (h2 : x < 9223372036854775808) : int64 x = x := by
  unfold int64; omega

theorem WF.off_add {m : MTProto} (h : WF m) {k : Int} (h0 : 0 ≤ k) (hk : k ≤ 16777216 + 8) :
    int64 (m.off + k) = m.off + k := by
  obtain ⟨h1, h2, h3, h4⟩ := h
  unfold maxAlloc at h4
  apply int64_of_bounds <;> omega

theorem slice_eq {buf : List Byte} {lo hi : Int} (h0 : 0 ≤ lo) (h1 : lo ≤ hi)
    (h2 : hi ≤ (buf.length : Int)) :
    slice buf lo hi = some (bytesAt buf lo.toNat (hi - lo).toNat) := by
  unfold slice bytesAt
  rw [if_pos ⟨h0, h1, h2⟩]

theorem bytesAt_length {buf : List Byte} {off n : Nat} (h : off + n ≤ buf.length) :
    (bytesAt buf off n).length = n := by
  unfold bytesAt
  simp; omega

theorem DecodeLong_eq {m : MTProto} (h : WF m) :
    DecodeLong m =
      if m.off + 8 ≤ m.size then
        some ⟨advance m 8, littleEndian (bytesAt m.buf m.off.toNat 8), none⟩
      else some ⟨m, 0, some Err.shortLong⟩ := by
  have hw := h.off_add (k := 8) (by omega) (by omega)
  obtain ⟨h1, h2, h3, h4⟩ := h
  unfold DecodeLong
  rw [hw]
  by_cases hc : m.off + 8 ≤ m.size
  · rw [if_neg (by omega), if_pos hc, slice_eq h1 (by omega) (by omega)]
    simp [advance, Uint64, bytesAt, List.take_take]
  · rw [if_pos (by omega), if_neg hc]

theorem DecodeInt_eq {m : MTProto} (h : WF m) :
    DecodeInt m =
      if m.off + 4 ≤ m.size then
        some ⟨advance m 4, int32 (littleEndian (bytesAt m.buf m.off.toNat 4)), none⟩
      else some ⟨m, 0, some Err.shortInt⟩ := by
  have hw := h.off_add (k := 4) (by omega) (by omega)
  obtain ⟨h1, h2, h3, h4⟩ := h
  unfold DecodeInt
  rw [hw]
  by_cases hc : m.off + 4 ≤ m.size
  · rw [if_neg (by omega), if_pos hc, slice_eq h1 (by omega) (by omega)]
    simp [advance, Uint32, bytesAt, List.take_take]
  · rw [if_pos (by omega), if_neg hc]

theorem DecodeUInt_eq {m : MTProto} (h : WF m) :
    DecodeUInt m =
      if m.off + 4 ≤ m.size then
        some ⟨advance m 4, littleEndian (bytesAt m.buf m.off.toNat 4), none⟩
      else some ⟨m, 0, some Err.shortUInt⟩ := by
  have hw := h.off_add (k := 4) (by omega) (by omega)
  obtain ⟨h1, h2, h3, h4⟩ := h
  unfold DecodeUInt
  rw [hw]
  by_cases hc : m.off + 4 ≤ m.size
  · rw [if_neg (by omega), if_pos hc, slice_eq h1 (by omega) (by omega)]
    simp [advance, Uint32, bytesAt, List.take_take]
  · rw [if_pos (by omega), if_neg hc]

theorem DecodeBytes_eq_int {m : MTProto} (h : WF m) {n : Int} (h0 : 0 ≤ n)
    (hn : m.off + n < 9223372036854775808) :
    DecodeBytes m n =
      if m.off + n ≤ m.size then
        some ⟨advance m n, bytesAt m.buf m.off.toNat n.toNat, none⟩
      else some ⟨m, [], some Err.shortBytes⟩ := by
  obtain ⟨h1, h2, h3, h4⟩ := h
  have hw : int64 (m.off + n) = m.off + n := int64_of_bounds (by omega) hn
  have hmax : (maxAlloc : Int) = 281474976710656 := rfl
  unfold DecodeBytes
  rw [hw]
  by_cases hc : m.off + n ≤ m.size
  · have hle : n ≤ (maxAlloc : Int) := by omega
    rw [if_neg (by omega), if_neg (by omega), if_pos hc, slice_eq h1 (by omega) (by omega)]
    have t : (m.off + n - m.off).toNat = n.toNat := by
      congr 1
      omega
    rw [t]
    rfl
  · rw [if_pos (by omega), if_neg hc]

theorem DecodeBytes_eq {m : MTProto} (h : WF m) {n : Nat} (hn : n ≤ 16777216) :
    DecodeBytes m n =
      if m.off + n ≤ m.size then
        some ⟨advance m n, bytesAt m.buf m.off.toNat n, none⟩
      else some ⟨m, [], some Err.shortBytes⟩ := by
  have hb : m.off + (n : Int) < 9223372036854775808 := by
    have h4 := h.2.2.2
    have h3 := h.2.2.1
    have h2 := h.2.1
    unfold maxAlloc at h4
    omega
  rw [DecodeBytes_eq_int h (by omega) hb, Int.toNat_ofNat]

/-- When `off + n` leaves the range of `int` the comparison of line 304 sees a
negative sum, and `make` panics on the length `n`. -/
theorem DecodeBytes_overflow {m : MTProto} (h : WF m) {n : Int}
    (hn : n < 9223372036854775808) (ho : 9223372036854775808 ≤ m.off + n) :
    DecodeBytes m n = none := by
  obtain ⟨h1, h2, h3, h4⟩ := h
  have hmax : (maxAlloc : Int) = 281474976710656 := rfl
  have h4' : (m.buf.length : Int) ≤ 281474976710656 := by
    unfold maxAlloc at h4
    omega
  have hw : int64 (m.off + n) = m.off + n - 18446744073709551616 := by
    unfold int64
    omega
  unfold DecodeBytes
  rw [hw, if_neg (by omega), if_pos (by omega)]

theorem WF.advance {m : MTProto} (h : WF m) {k : Int} (h0 : 0 ≤ k) (hk : m.off + k ≤ m.size) :
    WF (advance m k) := by
  obtain ⟨h1, h2, h3, h4⟩ := h
  exact ⟨by simp only [Mtproto.advance]; omega, hk, h3, h4⟩

@[simp] theorem advance_off (m : MTProto) (k : Int) : (advance m k).off = m.off + k := rfl
@[simp] theorem advance_size (m : MTProto) (k : Int) : (advance m k).size = m.size := rfl
@[simp] theorem advance_buf (m : MTProto) (k : Int) : (advance m k).buf = m.buf := rfl
@[simp] theorem advance_data (m : MTProto) (k : Int) : (advance m k).data = m.data := rfl
@[simp] theorem advance_level (m : MTProto) (k : Int) : (advance m k).level = m.level := rfl

theorem advance_advance (m : MTProto) (j k : Int) :
    advance (advance m j) k = advance m (j + k) := by
  simp [advance, add_assoc]

/-! ### Little-endian values -/

theorem encodeLE_length (n v : Nat) : (encodeLE n v).length = n := by
  induction n generalizing v with
  | zero => rfl
  | succ n ih => simp [encodeLE, ih]

theorem littleEndian_encodeLE (n v : Nat) : littleEndian (encodeLE n v) = v % 256 ^ n := by
  induction n generalizing v with
  | zero => simp [encodeLE, littleEndian, Nat.mod_one]
  | succ n ih =>
    simp only [encodeLE, littleEndian, ih]
    rw [pow_succ, Nat.mul_comm (256 ^ n) 256, Nat.mod_mul]

theorem littleEndian_lt (bs : List Byte) : littleEndian bs < 256 ^ bs.length := by
  induction bs with
  | nil => simp [littleEndian]
  | cons b bs ih =>
    simp only [littleEndian, List.length_cons, pow_succ]
    have := b.isLt
    omega

theorem bytesAt_append_left (pre x post : List Byte) :
    bytesAt (pre ++ x ++ post) pre.length x.length = x := by
  simp [bytesAt, List.drop_append, List.take_append]

/-! ### Bit operations -/

theorem or_shift_three (b0 b1 b2 : Byte) :
    b0.val ||| b1.val <<< 8 ||| b2.val <<< 16 = b0.val + 256 * b1.val + 65536 * b2.val := by
  have h0 := b0.isLt
  have h1 := b1.isLt
  rw [Nat.shiftLeft_eq, Nat.shiftLeft_eq, Nat.or_comm b0.val, Nat.mul_comm b1.val,
    ← Nat.mul_add_lt_is_or (by omega), Nat.or_comm, Nat.mul_comm b2.val,
    ← Nat.mul_add_lt_is_or (by omega)]
  omega

theorem and_three (x : Nat) : x &&& 3 = x % 4 :=
  Nat.and_pow_two_sub_one_eq_mod x 2

/-! ### Strings -/

theorem index_eq {buf : List Byte} {i : Int} (h0 : 0 ≤ i) :
    index buf i = buf[i.toNat]? := by
  unfold index
  rw [if_pos h0]

theorem bytesAt_three {buf : List Byte} {off : Nat} (h : off + 3 ≤ buf.length) :
    ∃ b0 b1 b2, bytesAt buf off 3 = [b0, b1, b2] ∧ buf[off]? = some b0 ∧
      buf[off + 1]? = some b1 ∧ buf[off + 2]? = some b2 := by
  have hl : 3 ≤ (buf.drop off).length := by simp; omega
  have e0 : buf[off]? = (buf.drop off)[0]? := by rw [List.getElem?_drop]; rfl
  have e1 : buf[off + 1]? = (buf.drop off)[1]? := by rw [List.getElem?_drop]
  have e2 : buf[off + 2]? = (buf.drop off)[2]? := by rw [List.getElem?_drop]
  rw [e0, e1, e2]
  unfold bytesAt
  match hd : buf.drop off, hl with
  | b0 :: b1 :: b2 :: r, _ => exact ⟨b0, b1, b2, by simp⟩

theorem stringBody_eq {m : MTProto} (h : WF m) {size padding : Nat} (hs : size ≤ 16777216)
    (hp : padding ≤ 3) :
    stringBody m size padding =
      if m.off + size ≤ m.size then
        if m.off + size + padding ≤ m.size then
          some ⟨advance m (size + padding), bytesAt m.buf m.off.toNat size, none⟩
        else some ⟨advance m size, [], some Err.shortStringPadding⟩
      else some ⟨m, [], some Err.shortStringSize⟩ := by
  have hw := h.off_add (k := size) (by omega) (by omega)
  have hw2 := h.off_add (k := size + padding) (by omega) (by omega)
  obtain ⟨h1, h2, h3, h4⟩ := h
  unfold stringBody
  rw [hw]
  by_cases hc : m.off + size ≤ m.size
  · rw [if_neg (by omega), if_pos hc, slice_eq h1 (by omega) (by omega)]
    simp only []
    rw [add_assoc, hw2]
    by_cases hd : m.off + (size + padding) ≤ m.size
    · rw [if_neg (by omega), if_pos hd]
      simp [advance]
    · rw [if_pos (by omega), if_neg hd]
      simp [advance]
  · rw [if_pos (by omega), if_neg hc]

theorem DecodeStringBytes_empty {m : MTProto} (h : WF m) (h0 : m.size ≤ m.off) :
    DecodeStringBytes m = some ⟨m, [], some Err.shortString⟩ := by
  have hw := h.off_add (k := 1) (by omega) (by omega)
  unfold DecodeStringBytes
  rw [hw, if_pos (by omega)]

theorem getElem?_lt {buf : List Byte} {i : Nat} {b : Byte} (h : buf[i]? = some b) :
    i < buf.length := by
  by_contra hc
  rw [List.getElem?_eq_none (by omega)] at h
  exact Option.noConfusion h

theorem DecodeStringBytes_short {m : MTProto} (h : WF m) {b : Byte}
    (hb : m.buf[m.off.toNat]? = some b) (hne : b.val ≠ 254) :
    DecodeStringBytes m = stringBody (advance m 1) b.val ((4 - (b.val + 1) % 4) % 4) := by
  have hw := h.off_add (k := 1) (by omega) (by omega)
  have hlt := getElem?_lt hb
  obtain ⟨h1, h2, h3, h4⟩ := h
  unfold DecodeStringBytes
  rw [hw, if_neg (by omega), index_eq h1, hb]
  simp only []
  rw [if_neg hne, and_three]
  rfl

theorem DecodeStringBytes_long {m : MTProto} (h : WF m) {b : Byte}
    (hb : m.buf[m.off.toNat]? = some b) (he : b.val = 254) :
    DecodeStringBytes m =
      if m.off + 4 ≤ m.size then
        stringBody (advance m 4) (littleEndian (bytesAt m.buf (m.off.toNat + 1) 3))
          ((4 - littleEndian (bytesAt m.buf (m.off.toNat + 1) 3) % 4) % 4)
      else some ⟨advance m 1, [], some Err.shortString⟩ := by
  have hw := h.off_add (k := 1) (by omega) (by omega)
  have hw2 := h.off_add (k := 2) (by omega) (by omega)
  have hw3 := h.off_add (k := 3) (by omega) (by omega)
  have hw4 := h.off_add (k := 4) (by omega) (by omega)
  have hlt := getElem?_lt hb
  obtain ⟨h1, h2, h3, h4⟩ := h
  unfold DecodeStringBytes
  rw [hw, if_neg (by omega), index_eq h1, hb]
  simp only []
  rw [if_pos he, add_assoc, add_assoc, add_assoc]
  norm_num only
  rw [hw2, hw3, hw4]
  by_cases hc : m.off + 4 ≤ m.size
  · rw [if_neg (by omega), if_pos hc]
    obtain ⟨b0, b1, b2, e, g0, g1, g2⟩ :=
      @bytesAt_three m.buf (m.off.toNat + 1) (by omega)
    have t1 : (m.off + 1).toNat = m.off.toNat + 1 := by omega
    have t2 : (m.off + 2).toNat = m.off.toNat + 1 + 1 := by omega
    have t3 : (m.off + 3).toNat = m.off.toNat + 1 + 2 := by omega
    rw [index_eq (by omega), index_eq (by omega), index_eq (by omega), t1, t2, t3, g0, g1, g2]
    simp only []
    rw [and_three, or_shift_three, e]
    simp only [littleEndian]
    have : b0.val + 256 * b1.val + 65536 * b2.val = b0.val + 256 * (b1.val + 256 * (b2.val + 256 * 0)) := by
      omega
    rw [this]
    rfl
  · rw [if_pos (by omega), if_neg hc]
    rfl

theorem bytesAt_length_le (buf : List Byte) (off n : Nat) : (bytesAt buf off n).length ≤ n := by
  unfold bytesAt
  simp only [List.length_take]
  omega

theorem strLen_le (buf : List Byte) (off : Nat) (b : Byte) : strLen buf off b < 16777216 := by
  unfold strLen
  split
  · have h1 := littleEndian_lt (bytesAt buf (off + 1) 3)
    have h2 := bytesAt_length_le buf (off + 1) 3
    have h3 : 256 ^ (bytesAt buf (off + 1) 3).length ≤ 256 ^ 3 :=
      Nat.pow_le_pow_right (by decide) h2
    omega
  · have := b.isLt
    omega

theorem strPad_le (k : Nat) : strPad k ≤ 3 := by
  unfold strPad; omega

/-- What `DecodeStringBytes` does on a well-formed state with at least one byte at
the cursor: with `h` header bytes, length `n` and `p` padding bytes, it returns the
`n` bytes after the header and moves the cursor by `h + n + p` when that many
bytes remain, and otherwise fails, the cursor having moved forward inside the
buffer. -/
theorem DecodeStringBytes_spec {m : MTProto} (h : WF m) {b : Byte}
    (hb : m.buf[m.off.toNat]? = some b) :
    (m.off + (strHdr b + strLen m.buf m.off.toNat b
        + strPad (strHdr b + strLen m.buf m.off.toNat b) : Nat) ≤ m.size →
      DecodeStringBytes m =
        some ⟨advance m (strHdr b + strLen m.buf m.off.toNat b
            + strPad (strHdr b + strLen m.buf m.off.toNat b) : Nat),
          bytesAt m.buf (m.off.toNat + strHdr b) (strLen m.buf m.off.toNat b), none⟩) ∧
    (m.size < m.off + (strHdr b + strLen m.buf m.off.toNat b
        + strPad (strHdr b + strLen m.buf m.off.toNat b) : Nat) →
      ∃ (k : Nat) (e : Err), 1 ≤ k ∧ m.off + k ≤ m.size ∧
        DecodeStringBytes m = some ⟨advance m k, [], some e⟩) := by
  have hlt := getElem?_lt hb
  have hn := strLen_le m.buf m.off.toNat b
  have hp := strPad_le (strHdr b + strLen m.buf m.off.toNat b)
  have hwf := h
  obtain ⟨h1, h2, h3, h4⟩ := h
  by_cases he : b.val = 254
  · have e1 : strHdr b = 4 := by simp [strHdr, he]
    have e2 : strLen m.buf m.off.toNat b = littleEndian (bytesAt m.buf (m.off.toNat + 1) 3) := by
      simp [strLen, he]
    have e3 : strPad (4 + strLen m.buf m.off.toNat b)
        = (4 - strLen m.buf m.off.toNat b % 4) % 4 := by
      unfold strPad; omega
    rw [DecodeStringBytes_long hwf hb he, ← e2]
    rw [e1] at hp ⊢
    generalize strLen m.buf m.off.toNat b = n at *
    rw [e3] at hp ⊢
    generalize (4 - n % 4) % 4 = p at *
    by_cases hc : m.off + 4 ≤ m.size
    · have hwf4 : WF (advance m 4) := hwf.advance (by omega) hc
      rw [if_pos hc, stringBody_eq hwf4 (by omega) hp]
      simp only [advance_off, advance_size, advance_buf, advance_advance]
      have t : (m.off + 4).toNat = m.off.toNat + 4 := by omega
      constructor
      · intro hs
        push_cast at hs
        rw [if_pos (by omega), if_pos (by omega), t]
        push_cast
        simp only [add_assoc]
      · intro hs
        push_cast at hs
        by_cases hd : m.off + 4 + (n : Int) ≤ m.size
        · rw [if_pos hd, if_neg (by omega)]
          exact ⟨4 + n, Err.shortStringPadding, by omega, by push_cast; omega, by push_cast; rfl⟩
        · rw [if_neg hd]
          exact ⟨4, Err.shortStringSize, by omega, by omega, rfl⟩
    · rw [if_neg hc]
      constructor
      · intro hs
        push_cast at hs
        omega
      · intro _
        exact ⟨1, Err.shortString, by omega, by omega, rfl⟩
  · have e1 : strHdr b = 1 := by simp [strHdr, he]
    have e2 : strLen m.buf m.off.toNat b = b.val := by simp [strLen, he]
    have e3 : strPad (1 + b.val) = (4 - (b.val + 1) % 4) % 4 := by
      unfold strPad; omega
    rw [DecodeStringBytes_short hwf hb he]
    rw [e1, e2] at hp ⊢
    rw [e3] at hp ⊢
    generalize (4 - (b.val + 1) % 4) % 4 = p at *
    have hb256 := b.isLt
    have hwf1 : WF (advance m 1) := hwf.advance (by omega) (by omega)
    rw [stringBody_eq hwf1 (by omega) hp]
    simp only [advance_off, advance_size, advance_buf, advance_advance]
    have t : (m.off + 1).toNat = m.off.toNat + 1 := by omega
    constructor
    · intro hs
      push_cast at hs
      rw [if_pos (by omega), if_pos (by omega), t]
      push_cast
      simp only [add_assoc]
    · intro hs
      push_cast at hs
      by_cases hd : m.off + 1 + (b.val : Int) ≤ m.size
      · rw [if_pos hd, if_neg (by omega)]
        exact ⟨1 + b.val, Err.shortStringPadding, by omega, by push_cast; omega,
          by push_cast; rfl⟩
      · rw [if_neg hd]
        exact ⟨1, Err.shortStringSize, by omega, by omega, rfl⟩

theorem bytesAt_mid (a x c : List Byte) (i n : Nat) (hi : i = a.length) (hn : n = x.length) :
    bytesAt (a ++ x ++ c) i n = x := by
  subst hi hn
  exact bytesAt_append_left a x c

theorem getElem?_mid (a c : List Byte) (b : Byte) (i : Nat) (hi : i = a.length) :
    (a ++ b :: c)[i]? = some b := by
  subst hi
  rw [List.getElem?_append_right (le_refl _)]
  simp

theorem getElem?_of_lt {m : MTProto} (h : WF m) (hlt : m.off < m.size) :
    ∃ b, m.buf[m.off.toNat]? = some b := by
  obtain ⟨h1, h2, h3, h4⟩ := h
  have : m.off.toNat < m.buf.length := by omega
  exact ⟨m.buf[m.off.toNat], List.getElem?_eq_getElem this⟩

/-- A successful `DecodeStringBytes` is the one `DecodeStringBytes_spec` describes. -/
theorem DecodeStringBytes_ok {m : MTProto} (h : WF m) {r : Ret (List Byte)}
    (hr : DecodeStringBytes m = some r) (he : r.err = none) :
    ∃ b, m.buf[m.off.toNat]? = some b ∧
      m.off + (strHdr b + strLen m.buf m.off.toNat b
        + strPad (strHdr b + strLen m.buf m.off.toNat b) : Nat) ≤ m.size ∧
      r = ⟨advance m (strHdr b + strLen m.buf m.off.toNat b
            + strPad (strHdr b + strLen m.buf m.off.toNat b) : Nat),
          bytesAt m.buf (m.off.toNat + strHdr b) (strLen m.buf m.off.toNat b), none⟩ := by
  by_cases hlt : m.off < m.size
  · obtain ⟨b, hb⟩ := getElem?_of_lt h hlt
    refine ⟨b, hb, ?_⟩
    obtain ⟨s1, s2⟩ := DecodeStringBytes_spec h hb
    by_cases hfit : m.off + (strHdr b + strLen m.buf m.off.toNat b
        + strPad (strHdr b + strLen m.buf m.off.toNat b) : Nat) ≤ m.size
    · refine ⟨hfit, ?_⟩
      have := s1 hfit
      rw [hr] at this
      exact Option.some.inj this
    · obtain ⟨k, e, _, _, hk⟩ := s2 (by omega)
      rw [hr] at hk
      have := Option.some.inj hk
      rw [this] at he
      exact Option.noConfusion he
  · have := DecodeStringBytes_empty h (by omega)
    rw [hr] at this
    have := Option.some.inj this
    rw [this] at he
    exact Option.noConfusion he

/-! ### Vectors -/

theorem longsAt_length (buf : List Byte) (off n : Nat) : (longsAt buf off n).length = n := by
  induction n generalizing off with
  | zero => rfl
  | succ n ih => simp [longsAt, ih]

theorem longsAt_getElem? (buf : List Byte) (off n i : Nat) (hi : i < n) :
    (longsAt buf off n)[i]? = some (littleEndian (bytesAt buf (off + 8 * i) 8)) := by
  induction n generalizing off i with
  | zero => omega
  | succ n ih =>
    cases i with
    | zero => simp [longsAt]
    | succ i =>
      simp only [longsAt, List.getElem?_cons_succ]
      rw [ih (off + 8) i (by omega)]
      congr 3
      omega

theorem vectorLoop_ok {m : MTProto} (h : WF m) (n : Nat) (x : List Nat)
    (hfit : m.off + 8 * (n : Int) ≤ m.size) :
    vectorLoop n m x
      = some ⟨advance m (8 * (n : Int)), x ++ longsAt m.buf m.off.toNat n, none⟩ := by
  induction n generalizing m x with
  | zero => simp [vectorLoop, longsAt, advance]
  | succ n ih =>
    have h8 : m.off + 8 ≤ m.size := by push_cast at hfit; omega
    have hwf : WF (advance m 8) := h.advance (by omega) h8
    have t : (m.off + 8).toNat = m.off.toNat + 8 := by have := h.1; omega
    unfold vectorLoop
    rw [DecodeLong_eq h, if_pos h8]
    simp only []
    rw [ih hwf _ (by simp only [advance_off, advance_size]; push_cast at hfit; omega)]
    simp only [advance_advance, advance_buf, advance_off, t, longsAt, List.append_assoc,
      List.singleton_append]
    congr 3
    push_cast
    ring

theorem vectorLoop_short {m : MTProto} (h : WF m) (n : Nat) (x : List Nat)
    (hfit : m.size < m.off + 8 * (n : Int)) :
    ∃ k : Nat, k < n ∧ m.off + 8 * (k : Int) ≤ m.size ∧
      vectorLoop n m x = some ⟨advance m (8 * (k : Int)), [], some Err.shortLong⟩ := by
  induction n generalizing m x with
  | zero => have := h.2.1; simp at hfit; omega
  | succ n ih =>
    unfold vectorLoop
    rw [DecodeLong_eq h]
    by_cases h8 : m.off + 8 ≤ m.size
    · have hwf : WF (advance m 8) := h.advance (by omega) h8
      rw [if_pos h8]
      simp only []
      obtain ⟨k, hk, hle, hv⟩ := ih hwf (x ++ [littleEndian (bytesAt m.buf m.off.toNat 8)])
        (by simp only [advance_off, advance_size]; push_cast at hfit; omega)
      refine ⟨k + 1, by omega, ?_, ?_⟩
      · simp only [advance_off, advance_size] at hle; push_cast; omega
      · rw [hv, advance_advance]
        congr 3
        push_cast
        ring
    · rw [if_neg h8]
      exact ⟨0, by omega, by have := h.2.1; simpa using this, by simp [advance]⟩

theorem DecodeVectorLong_eq {m : MTProto} (h : WF m) :
    DecodeVectorLong m =
      if m.off + 4 ≤ m.size then
        if vecTag m ≠ vector then some ⟨advance m 4, [], some Err.vectorConstructor⟩
        else if m.off + 8 ≤ m.size then
          if vecCount m ≤ 0 then some ⟨advance m 8, [], some Err.vectorSize⟩
          else vectorLoop (vecCount m).toNat (advance m 8) []
        else some ⟨advance m 4, [], some Err.shortInt⟩
      else some ⟨m, [], some Err.shortUInt⟩ := by
  unfold DecodeVectorLong
  rw [DecodeUInt_eq h]
  by_cases h4 : m.off + 4 ≤ m.size
  · have hwf : WF (advance m 4) := h.advance (by omega) h4
    have t : (m.off + 4).toNat = m.off.toNat + 4 := by have := h.1; omega
    rw [if_pos h4, if_pos h4]
    simp only []
    by_cases htag : vecTag m = vector
    · rw [if_neg (by unfold vecTag at htag; simpa using htag), if_neg (by simpa using htag),
        DecodeInt_eq hwf]
      simp only [advance_off, advance_size, advance_buf, advance_advance, t]
      by_cases h8 : m.off + 8 ≤ m.size
      · rw [if_pos (by omega), if_pos h8]
        simp only []
        rfl
      · rw [if_neg (by omega), if_neg h8]
    · rw [if_pos (by unfold vecTag at htag; simpa using htag), if_pos (by simpa using htag)]
  · rw [if_neg h4, if_neg h4]

/-! ### Receiving a frame -/

theorem connRead_length {conn rest : Conn} {n : Nat} {bs : List Byte}
    (h : connRead conn n = some (bs, rest)) : bs.length ≤ n ∧ (0 < n → 0 < bs.length) := by
  induction conn with
  | nil =>
    unfold connRead at h
    by_cases hn : n = 0
    · rw [if_pos hn] at h
      cases Option.some.inj h
      exact ⟨Nat.zero_le _, fun h0 => absurd hn (by omega)⟩
    · rw [if_neg hn] at h
      exact Option.noConfusion h
  | cons c cs ih =>
    cases c with
    | nil =>
      unfold connRead at h
      by_cases hn : n = 0
      · rw [if_pos hn] at h
        cases Option.some.inj h
        exact ⟨Nat.zero_le _, fun h0 => absurd hn (by omega)⟩
      · rw [if_neg hn] at h
        exact ih h
    | cons x t =>
      unfold connRead at h
      by_cases hn : n = 0
      · rw [if_pos hn] at h
        cases Option.some.inj h
        exact ⟨Nat.zero_le _, fun h0 => absurd hn (by omega)⟩
      · rw [if_neg hn] at h
        cases Option.some.inj h
        constructor
        · simp only [List.length_take, List.length_cons]
          omega
        · intro _
          simp only [List.length_take, List.length_cons]
          omega

theorem overwrite_length {dst src : List Byte} {pos : Nat}
    (h : pos + src.length ≤ dst.length) : (overwrite dst pos src).length = dst.length := by
  unfold overwrite
  simp only [List.length_append, List.length_take, List.length_drop]
  omega

theorem readLoop_done (fuel : Nat) (m : MTProto) (size : Nat) (conn : Conn) :
    readLoop fuel m size conn 0 = (m, conn, none) := by
  cases fuel <;> simp [readLoop]

/-- The loop of `Read` changes the buffer only, and the buffer keeps its length. -/
theorem readLoop_buf (fuel : Nat) (m : MTProto) (size : Nat) (conn : Conn) (left : Nat)
    (hl : left ≤ size) (hb : m.buf.length = size) :
    ∃ buf, buf.length = size ∧ (readLoop fuel m size conn left).1 = { m with buf := buf } := by
  induction fuel generalizing m conn left with
  | zero => exact ⟨m.buf, hb, rfl⟩
  | succ fuel ih =>
    unfold readLoop
    by_cases h0 : left = 0
    · rw [if_pos h0]
      exact ⟨m.buf, hb, rfl⟩
    · rw [if_neg h0]
      cases hc : connRead conn left with
      | none => exact ⟨m.buf, hb, rfl⟩
      | some p =>
        obtain ⟨bs, rest⟩ := p
        have hlen := (connRead_length hc).1
        have hov : (overwrite m.buf (size - left) bs).length = size := by
          rw [overwrite_length (by omega), hb]
        obtain ⟨buf, hbuf, heq⟩ := ih { m with buf := overwrite m.buf (size - left) bs } rest
          (left - bs.length) (by omega) hov
        exact ⟨buf, hbuf, heq⟩

theorem byte_shift_or_lt (b0 b1 b2 : Byte) :
    b0.val ||| b1.val <<< 8 ||| b2.val <<< 16 < 16777216 := by
  rw [or_shift_three]
  have := b0.isLt
  have := b1.isLt
  have := b2.isLt
  omega

/-- The frame length `Read` takes from the connection is below 2^24. -/
theorem readLength_lt {conn conn1 : Conn} {size : Nat}
    (h : readLength conn = (some size, conn1)) : size < 16777216 := by
  unfold readLength at h
  cases h1 : connRead conn 1 with
  | none =>
    rw [h1] at h
    simp only [] at h
    exact Option.noConfusion (congrArg Prod.fst h)
  | some p =>
    obtain ⟨b, c1⟩ := p
    rw [h1] at h
    simp only [] at h
    by_cases hs : ((overwrite (List.replicate 1 0) 0 b).getD 0 0).val < 127
    · rw [if_pos hs] at h
      have := Option.some.inj (congrArg Prod.fst h)
      rw [Nat.shiftLeft_eq] at this
      omega
    · rw [if_neg hs] at h
      cases h3 : connRead c1 3 with
      | none =>
        rw [h3] at h
        simp only [] at h
        exact Option.noConfusion (congrArg Prod.fst h)
      | some q =>
        obtain ⟨b', c2⟩ := q
        rw [h3] at h
        simp only [] at h
        have := Option.some.inj (congrArg Prod.fst h)
        rw [← this]
        exact byte_shift_or_lt _ _ _

/-- When the receiving part of `Read` ends without an error of the connection, the
state it leaves is `m` with some frame of fewer than 2^24 bytes in the buffer,
the length of the frame in `size` and the cursor at 0. -/
theorem receive_ok {m m1 : MTProto} {conn rest : Conn}
    (h : receive m conn = (m1, rest, none)) :
    ∃ frame : List Byte, frame.length < 16777216 ∧ m1 = received m frame := by
  unfold receive at h
  cases hL : readLength conn with
  | mk o conn1 =>
    rw [hL] at h
    cases o with
    | none =>
      simp only [] at h
      exact Option.noConfusion (congrArg (fun t => t.2.2) h)
    | some size =>
      simp only [] at h
      have hlt := readLength_lt hL
      obtain ⟨buf, hbuf, heq⟩ := readLoop_buf size
        { m with size := (size : Int), buf := List.replicate size 0 } size conn1 size
        (le_refl _) (by simp)
      cases hR : readLoop size { m with size := (size : Int), buf := List.replicate size 0 }
          size conn1 size with
      | mk m2 t =>
        obtain ⟨conn2, e⟩ := t
        rw [hR] at h heq
        simp only [] at heq
        cases e with
        | some e =>
          simp only [] at h
          exact Option.noConfusion (congrArg (fun t => t.2.2) h)
        | none =>
          simp only [] at h
          have hm := congrArg Prod.fst h
          simp only [] at hm
          refine ⟨buf, by omega, ?_⟩
          rw [← hm, heq]
          simp only [received, hbuf]

theorem received_inj {m : MTProto} {f g : List Byte} (h : received m f = received m g) :
    f = g :=
  congrArg MTProto.buf h

/-- The frame the receiving part of `Read` stored has fewer than 2^24 bytes. -/
theorem receive_frame_lt {m : MTProto} {conn rest : Conn} {frame : List Byte}
    (h : receive m conn = (received m frame, rest, none)) : frame.length < 16777216 := by
  obtain ⟨g, hg, heq⟩ := receive_ok h
  rw [received_inj heq]
  exact hg

/-- `Read` is the receiving part followed by `readFrame`. -/
theorem Read_of_receive {m m1 : MTProto} {conn rest : Conn}
    (h : receive m conn = (m1, rest, none)) : Read m conn = readFrame m1 rest := by
  unfold Read
  rw [h]

theorem received_WF (m : MTProto) {frame : List Byte} (hlen : frame.length < 16777216) :
    WF (received m frame) := by
  refine ⟨le_refl _, ?_, rfl, ?_⟩
  · show (0 : Int) ≤ (frame.length : Int)
    omega
  · show frame.length ≤ maxAlloc
    unfold maxAlloc
    omega

theorem WF_of_eq {m m' : MTProto} (h : WF m) (h1 : m'.off = m.off) (h2 : m'.size = m.size)
    (h3 : m'.buf = m.buf) : WF m' := by
  unfold WF at *
  rw [h1, h2, h3]
  exact h

/-- Lines 208-231 of `Read` on a frame of at least 20 bytes whose `authKeyId` is
zero: the two header checks in the order of the source, then `DecodePacket`. -/
theorem readFrame_zero_auth (m : MTProto) (frame : List Byte) (rest : Conn)
    (hlen : frame.length < 16777216) (h20 : 20 ≤ frame.length)
    (hauth : littleEndian (bytesAt frame 0 8) = 0) :
    readFrame (received m frame) rest =
      if int32 (littleEndian (bytesAt frame 16 4)) ≠ (frame.length : Int) - 20 then
        some ⟨headerRead m frame 20 (littleEndian (bytesAt frame 8 8)), rest,
          some (Err.lengthMismatch (int32 (littleEndian (bytesAt frame 16 4)))
            ((frame.length : Int) - 20))⟩
      else if littleEndian (bytesAt frame 8 8) % 4 ≠ 1
          ∧ littleEndian (bytesAt frame 8 8) % 4 ≠ 3 then
        some ⟨headerRead m frame 20 (littleEndian (bytesAt frame 8 8)), rest,
          some (Err.invalidMessageId (littleEndian (bytesAt frame 8 8) % 4))⟩
      else
        match DecodePacket (bodyStart m frame (littleEndian (bytesAt frame 8 8))) with
        | none => none
        | some rp => some ⟨rp.m, rest, rp.err⟩ := by
  have hwf0 : WF (received m frame) := received_WF m hlen
  have hs : (received m frame).size = (frame.length : Int) := rfl
  have ho : (received m frame).off = 0 := rfl
  have hb : (received m frame).buf = frame := rfl
  have hwf8 : WF (advance (received m frame) 8) :=
    hwf0.advance (by omega) (by rw [hs, ho]; omega)
  have hwf16 : WF (advance (received m frame) 16) :=
    hwf0.advance (by omega) (by rw [hs, ho]; omega)
  unfold readFrame
  rw [if_neg (by rw [hs]; omega), if_neg (by rw [hs]; omega), DecodeLong_eq hwf0,
    if_pos (by rw [hs, ho]; omega)]
  simp only []
  rw [hb, ho, Int.toNat_zero, hauth, if_pos rfl, DecodeLong_eq hwf8,
    if_pos (by simp only [advance_off, advance_size]; rw [hs, ho]; omega)]
  simp only [advance_off, advance_size, advance_buf, advance_advance]
  rw [DecodeInt_eq, if_pos (by simp only [advance_off, advance_size]; rw [hs, ho]; omega)]
  · simp only [advance_off, advance_size, advance_buf, advance_advance, advance, received,
      and_three, headerRead, bodyStart]
    have e64 : int64 ((frame.length : Int) - 20) = (frame.length : Int) - 20 :=
      int64_of_bounds (by omega) (by omega)
    rw [e64]
    have t8 : (8 : Int).toNat = 8 := rfl
    have t16 : (16 : Int).toNat = 16 := rfl
    norm_num only
    rw [t8, t16]
  · exact WF_of_eq hwf16 (by simp only [advance_off]; norm_num) rfl rfl

/-- Lines 208-217 of `Read` on a frame of 9 to 19 bytes whose `authKeyId` is zero:
the header does not fit and a short-buffer error comes back. -/
theorem readFrame_short_header (m : MTProto) (frame : List Byte) (rest : Conn)
    (h8 : 8 < frame.length) (h20 : frame.length < 20)
    (hauth : littleEndian (bytesAt frame 0 8) = 0) :
    readFrame (received m frame) rest =
      if 16 ≤ frame.length then
        some ⟨headerRead m frame 16 (littleEndian (bytesAt frame 8 8)), rest, some Err.shortInt⟩
      else
        some ⟨headerRead m frame 8 0, rest, some Err.shortLong⟩ := by
  have hwf0 : WF (received m frame) := received_WF m (by omega)
  have hs : (received m frame).size = (frame.length : Int) := rfl
  have ho : (received m frame).off = 0 := rfl
  have hb : (received m frame).buf = frame := rfl
  have hwf8 : WF (advance (received m frame) 8) :=
    hwf0.advance (by omega) (by rw [hs, ho]; omega)
  unfold readFrame
  rw [if_neg (by rw [hs]; omega), if_neg (by rw [hs]; omega), DecodeLong_eq hwf0,
    if_pos (by rw [hs, ho]; omega)]
  simp only []
  rw [hb, ho, Int.toNat_zero, hauth, if_pos rfl, DecodeLong_eq hwf8]
  simp only [advance_off, advance_size, advance_buf, advance_advance]
  by_cases h16 : 16 ≤ frame.length
  · have hwf16 : WF (advance (received m frame) 16) :=
      hwf0.advance (by omega) (by rw [hs, ho]; omega)
    rw [if_pos (by rw [hs, ho]; omega), if_pos h16]
    simp only []
    rw [DecodeInt_eq, if_neg (by simp only [advance_off, advance_size]; rw [hs, ho]; omega)]
    · simp only [advance_off, advance_size, advance_buf, advance_advance, advance, received,
        headerRead]
      have t8 : (8 : Int).toNat = 8 := rfl
      norm_num only
      rw [t8]
    · exact WF_of_eq hwf16 (by simp only [advance_off]; norm_num) rfl rfl
  · rw [if_neg (by rw [hs, ho]; omega), if_neg h16]
    simp only [advance, received, headerRead]
    norm_num only

/-- Line 233 of `Read`: a frame longer than 8 bytes whose `authKeyId` is not zero
is left undecoded and `Read` returns nil. -/
theorem readFrame_nonzero_auth (m : MTProto) (frame : List Byte) (rest : Conn)
    (hlen : frame.length < 16777216) (h8 : 8 < frame.length)
    (hauth : littleEndian (bytesAt frame 0 8) ≠ 0) :
    readFrame (received m frame) rest =
      some ⟨headerRead m frame 8 m.messageId, rest, none⟩ := by
  have hwf0 : WF (received m frame) := received_WF m hlen
  have hs : (received m frame).size = (frame.length : Int) := rfl
  have ho : (received m frame).off = 0 := rfl
  have hb : (received m frame).buf = frame := rfl
  unfold readFrame
  rw [if_neg (by rw [hs]; omega), if_neg (by rw [hs]; omega), DecodeLong_eq hwf0,
    if_pos (by rw [hs, ho]; omega)]
  simp only []
  rw [hb, ho, Int.toNat_zero, if_neg hauth]
  simp only [advance, received, headerRead]
  norm_num only

/-! ### Length header: send side against receive side -/

/-- The one-byte length header, the chunk holding it whole. -/
theorem readLength_cons_small (b : Byte) (t : List Byte) (cs : Conn) (h : b.val < 127) :
    readLength ((b :: t) :: cs) = (some (b.val <<< 2), t :: cs) := by
  have e : connRead ((b :: t) :: cs) 1 = some ([b], t :: cs) := rfl
  have o : overwrite (List.replicate 1 0) 0 [b] = [b] := rfl
  unfold readLength
  rw [e]
  simp only [o, List.getD_cons_zero, if_pos h]

/-- The four-byte length header, the chunk holding it whole. -/
theorem readLength_cons_long (b b0 b1 b2 : Byte) (t : List Byte) (cs : Conn)
    (h : ¬ b.val < 127) :
    readLength ((b :: b0 :: b1 :: b2 :: t) :: cs)
      = (some (b0.val ||| b1.val <<< 8 ||| b2.val <<< 16), t :: cs) := by
  have e : connRead ((b :: b0 :: b1 :: b2 :: t) :: cs) 1
      = some ([b], (b0 :: b1 :: b2 :: t) :: cs) := rfl
  have e3 : connRead ((b0 :: b1 :: b2 :: t) :: cs) 3 = some ([b0, b1, b2], t :: cs) := rfl
  have o : overwrite (List.replicate 1 0) 0 [b] = [b] := rfl
  have o3 : overwrite (List.replicate 3 0) 0 [b0, b1, b2] = [b0, b1, b2] := rfl
  unfold readLength
  rw [e]
  simp only [o, List.getD_cons_zero, if_neg h, e3, o3, List.getD_cons_succ]

/-- The length header `SendPacket` writes and the length `Read` takes from it
agree when the payload has fewer than 127 words and a length that is a multiple
of 4 (the bytes arriving in one chunk). -/
theorem readLength_addLength_short (x rest : List Byte) (cs : Conn) (h4 : x.length % 4 = 0)
    (hw : x.length / 4 < 127) :
    readLength ((addLength x ++ rest) :: cs) = (some x.length, (x ++ rest) :: cs) := by
  have hsz : (x.length / 4 % 256) <<< 2 = x.length := by rw [Nat.shiftLeft_eq]; omega
  have hlt : x.length / 4 % 256 < 127 := by omega
  unfold addLength
  simp only []
  rw [if_pos hw, List.cons_append, readLength_cons_small _ _ _ hlt]
  simp only [hsz]

/-- For a payload of 127 words or more (and fewer than 2^24) `Read` takes the word
count `SendPacket` wrote as the frame length in bytes (the bytes arriving in one
chunk). -/
theorem readLength_addLength_long (x rest : List Byte) (cs : Conn) (hw : 127 ≤ x.length / 4)
    (hlt : x.length / 4 < 16777216) :
    readLength ((addLength x ++ rest) :: cs) = (some (x.length / 4), (x ++ rest) :: cs) := by
  unfold addLength
  simp only []
  rw [if_neg (Nat.not_lt.mpr hw)]
  generalize x.length / 4 = w at *
  have hor : w <<< 8 ||| 127 = 256 * w + 127 := by
    rw [Nat.shiftLeft_eq, Nat.mul_comm]
    exact (Nat.mul_add_lt_is_or (i := 8) (by decide) w).symm
  have henc : EncodeInt (int32 ((w <<< 8 ||| 127 : Nat) : Int))
      = [⟨127, by decide⟩, ⟨w % 256, Nat.mod_lt _ (by decide)⟩,
          ⟨w / 256 % 256, Nat.mod_lt _ (by decide)⟩,
          ⟨w / 65536 % 256, Nat.mod_lt _ (by decide)⟩] := by
    rw [hor]
    have hv : (int32 ((256 * w + 127 : Nat) : Int) % 4294967296).toNat = 256 * w + 127 := by
      unfold int32
      push_cast
      omega
    unfold EncodeInt
    rw [hv]
    simp only [encodeLE, List.cons.injEq, Fin.mk.injEq, and_true]
    refine ⟨by omega, by omega, by omega, by omega⟩
  have hsz : (w % 256) ||| (w / 256 % 256) <<< 8 ||| (w / 65536 % 256) <<< 16 = w := by
    have := or_shift_three ⟨w % 256, Nat.mod_lt _ (by decide)⟩
      ⟨w / 256 % 256, Nat.mod_lt _ (by decide)⟩ ⟨w / 65536 % 256, Nat.mod_lt _ (by decide)⟩
    simp only [] at this
    rw [this]
    omega
  have hge : ¬ (127 : Nat) < 127 := by decide
  rw [henc]
  simp only [List.cons_append, List.nil_append]
  rw [readLength_cons_long _ _ _ _ _ _ hge]
  simp only [hsz]

/-! ### Framed bytes, in whatever chunks they arrive

The frame `Read` stores is determined by the bytes on the connection whenever the
length header is read whole: always for the one-byte form, and for the four-byte
form when its bytes are at hand together.  The statements about `Read` below are
about the frame it stored, so they cover the other deliveries as well. -/

theorem connRead_join {conn rest : Conn} {n : Nat} {bs : List Byte}
    (h : connRead conn n = some (bs, rest)) : conn.flatten = bs ++ rest.flatten := by
  induction conn with
  | nil =>
    unfold connRead at h
    by_cases hn : n = 0
    · rw [if_pos hn] at h
      cases Option.some.inj h
      rfl
    · rw [if_neg hn] at h
      exact Option.noConfusion h
  | cons c cs ih =>
    cases c with
    | nil =>
      unfold connRead at h
      by_cases hn : n = 0
      · rw [if_pos hn] at h
        cases Option.some.inj h
        rfl
      · rw [if_neg hn] at h
        rw [List.flatten_cons, List.nil_append]
        exact ih h
    | cons x t =>
      unfold connRead at h
      by_cases hn : n = 0
      · rw [if_pos hn] at h
        cases Option.some.inj h
        rfl
      · rw [if_neg hn] at h
        cases Option.some.inj h
        rw [List.flatten_cons, List.flatten_cons, ← List.append_assoc, List.take_append_drop]

theorem connRead_some {conn : Conn} {n : Nat} (hne : conn.flatten ≠ []) :
    ∃ bs rest, connRead conn n = some (bs, rest) := by
  induction conn with
  | nil => exact absurd rfl hne
  | cons c cs ih =>
    cases c with
    | nil =>
      unfold connRead
      by_cases hn : n = 0
      · rw [if_pos hn]
        exact ⟨_, _, rfl⟩
      · rw [if_neg hn]
        exact ih (by rwa [List.flatten_cons, List.nil_append] at hne)
    | cons x t =>
      unfold connRead
      by_cases hn : n = 0
      · rw [if_pos hn]
        exact ⟨_, _, rfl⟩
      · rw [if_neg hn]
        exact ⟨_, _, rfl⟩

/-- The loop of `Read` on a connection that holds the `left` bytes `data` it still
needs, whatever the chunks: it ends without error after at most `left` reads, the
bytes `data` stand behind the bytes already in the buffer, and the bytes after
`data` are left on the connection. -/
theorem readLoop_full (fuel : Nat) (m : MTProto) (size : Nat) (conn : Conn) (left : Nat)
    (data tail : List Byte) (hf : left ≤ fuel) (hl : left ≤ size) (hb : m.buf.length = size)
    (hd : data.length = left) (hc : conn.flatten = data ++ tail) :
    ∃ rest : Conn, rest.flatten = tail ∧
      readLoop fuel m size conn left
        = ({ m with buf := m.buf.take (size - left) ++ data }, rest, none) := by
  induction fuel generalizing m conn left data with
  | zero =>
    have h0 : left = 0 := by omega
    have hd0 : data = [] := List.length_eq_zero.mp (by omega)
    subst h0 hd0
    refine ⟨conn, by simpa using hc, ?_⟩
    unfold readLoop
    rw [Nat.sub_zero, ← hb, List.take_length, List.append_nil]
  | succ fuel ih =>
    unfold readLoop
    by_cases h0 : left = 0
    · have hd0 : data = [] := List.length_eq_zero.mp (by omega)
      subst h0 hd0
      rw [if_pos rfl]
      refine ⟨conn, by simpa using hc, ?_⟩
      rw [Nat.sub_zero, ← hb, List.take_length, List.append_nil]
    · rw [if_neg h0]
      have hne : conn.flatten ≠ [] := by
        rw [hc]
        intro h
        have := congrArg List.length h
        simp only [List.length_append, List.length_nil] at this
        omega
      obtain ⟨bs, rest, hr⟩ := @connRead_some conn left hne
      have hbl := connRead_length hr
      have hj := connRead_join hr
      rw [hr]
      simp only []
      have hpre : bs = data.take bs.length := by
        have h1 : (bs ++ rest.flatten).take bs.length = (data ++ tail).take bs.length := by
          rw [← hj, ← hc]
        rw [List.take_left, List.take_append_of_le_length (by omega)] at h1
        exact h1
      have hrest : rest.flatten = data.drop bs.length ++ tail := by
        have h1 : (bs ++ rest.flatten).drop bs.length = (data ++ tail).drop bs.length := by
          rw [← hj, ← hc]
        rw [List.drop_left, List.drop_append_of_le_length (by omega)] at h1
        exact h1
      obtain ⟨rest2, hr2, heq⟩ := ih { m with buf := overwrite m.buf (size - left) bs } rest
        (left - bs.length) (data.drop bs.length) (by omega) (by omega)
        (by show (overwrite m.buf (size - left) bs).length = size
            rw [overwrite_length (by omega), hb])
        (by rw [List.length_drop]; omega) hrest
      refine ⟨rest2, hr2, ?_⟩
      rw [heq]
      have hbuf : (overwrite m.buf (size - left) bs).take (size - (left - bs.length))
          ++ data.drop bs.length = m.buf.take (size - left) ++ data := by
        have e1 : size - (left - bs.length) = (m.buf.take (size - left) ++ bs).length := by
          rw [List.length_append, List.length_take]
          omega
        unfold overwrite
        rw [e1, List.take_left, List.append_assoc]
        conv_rhs => rw [← List.take_append_drop bs.length data, ← hpre]
      simp only [hbuf]

/-- The short form of the length header cannot be read short.  When the bytes the
connection holds are a length byte `b < 127`, a frame of `4 * b` bytes and any
bytes after it, `Read` stores that frame and leaves the bytes after it on the
connection, whatever the chunks in which the bytes arrive. -/
theorem receive_short_form (m : MTProto) (conn : Conn) (b : Byte) (frame tail : List Byte)
    (hb : b.val < 127) (hlen : frame.length = 4 * b.val)
    (hc : conn.flatten = b :: (frame ++ tail)) :
    ∃ rest : Conn, rest.flatten = tail ∧ receive m conn = (received m frame, rest, none) := by
  have hne : conn.flatten ≠ [] := by rw [hc]; exact List.cons_ne_nil _ _
  obtain ⟨bs, conn1, h1⟩ := @connRead_some conn 1 hne
  have hbl := connRead_length h1
  have hj := connRead_join h1
  have hone : bs.length = 1 := by have := hbl.2 (by decide); omega
  obtain ⟨x, hx⟩ := List.length_eq_one.mp hone
  subst hx
  rw [hc, List.singleton_append] at hj
  have hxb : b = x := (List.cons.inj hj).1
  have hrest : conn1.flatten = frame ++ tail := ((List.cons.inj hj).2).symm
  subst hxb
  have hL : readLength conn = (some (b.val <<< 2), conn1) := by
    have o : overwrite (List.replicate 1 0) 0 [b] = [b] := rfl
    unfold readLength
    rw [h1]
    simp only [o, List.getD_cons_zero, if_pos hb]
  have hsz : b.val <<< 2 = frame.length := by rw [Nat.shiftLeft_eq]; omega
  rw [hsz] at hL
  obtain ⟨rest, hr, heq⟩ := readLoop_full frame.length
    { m with size := (frame.length : Int), buf := List.replicate frame.length 0 } frame.length
    conn1 frame.length frame tail (le_refl _) (le_refl _) (by simp) rfl hrest
  refine ⟨rest, hr, ?_⟩
  unfold receive
  rw [hL]
  simp only []
  rw [heq]
  simp only [Nat.sub_self, List.take_zero, List.nil_append, received]

/-- The long form of the length header, delivered whole in the chunk that starts
with it: `Read` stores the frame whose length in bytes is the 24-bit value of the
header, whatever the chunks in which the bytes of the frame arrive. -/
theorem receive_long_form (m : MTProto) (b b0 b1 b2 : Byte) (t : List Byte) (cs : Conn)
    (frame tail : List Byte) (hb : ¬ b.val < 127)
    (hlen : frame.length = b0.val ||| b1.val <<< 8 ||| b2.val <<< 16)
    (hc : (t :: cs).flatten = frame ++ tail) :
    ∃ rest : Conn, rest.flatten = tail ∧
      receive m ((b :: b0 :: b1 :: b2 :: t) :: cs) = (received m frame, rest, none) := by
  have hL := readLength_cons_long b b0 b1 b2 t cs hb
  rw [← hlen] at hL
  obtain ⟨rest, hr, heq⟩ := readLoop_full frame.length
    { m with size := (frame.length : Int), buf := List.replicate frame.length 0 } frame.length
    (t :: cs) frame.length frame tail (le_refl _) (le_refl _) (by simp) rfl hc
  refine ⟨rest, hr, ?_⟩
  unfold receive
  rw [hL]
  simp only []
  rw [heq]
  simp only [Nat.sub_self, List.take_zero, List.nil_append, received]

/-! ### Handshake -/

theorem findFingerprint_iff (l : List Nat) :
    findFingerprint l = true ↔ 14101943622620965665 ∈ l := by
  induction l with
  | nil => simp [findFingerprint]
  | cons b rest ih =>
    unfold findFingerprint
    by_cases hb : b = 14101943622620965665
    · rw [if_pos hb, hb]
      simp
    · rw [if_neg hb, ih, List.mem_cons]
      constructor
      · exact Or.inr
      · rintro (h | h)
        · exact absurd h.symm hb
        · exact h

/-! ### The cursor invariant -/

theorem CursorStep.refl {m : MTProto} (h : WF m) : CursorStep m m :=
  ⟨h, le_refl _, rfl, rfl⟩

theorem CursorStep.trans {a b c : MTProto} (h1 : CursorStep a b) (h2 : CursorStep b c) :
    CursorStep a c :=
  ⟨h2.1, le_trans h1.2.1 h2.2.1, h2.2.2.1.trans h1.2.2.1, h2.2.2.2.trans h1.2.2.2⟩

theorem CursorStep.forward {m : MTProto} (h : WF m) {k : Int} (h0 : 0 ≤ k)
    (hk : m.off + k ≤ m.size) : CursorStep m (advance m k) :=
  ⟨h.advance h0 hk, by simp only [advance_off]; omega, rfl, rfl⟩

/-- Fields other than the cursor, the buffer and its size play no part in the
invariant. -/
theorem CursorStep.of_eq {m a b : MTProto} (h : CursorStep m a) (h1 : b.off = a.off)
    (h2 : b.size = a.size) (h3 : b.buf = a.buf) : CursorStep m b :=
  ⟨WF_of_eq h.1 h1 h2 h3, by rw [h1]; exact h.2.1, h3.trans h.2.2.1, h2.trans h.2.2.2⟩

theorem DecodeLong_step {m : MTProto} (h : WF m) :
    ∃ r, DecodeLong m = some r ∧ CursorStep m r.m := by
  rw [DecodeLong_eq h]
  by_cases hc : m.off + 8 ≤ m.size
  · rw [if_pos hc]
    exact ⟨_, rfl, CursorStep.forward h (by omega) hc⟩
  · rw [if_neg hc]
    exact ⟨_, rfl, CursorStep.refl h⟩

theorem DecodeInt_step {m : MTProto} (h : WF m) :
    ∃ r, DecodeInt m = some r ∧ CursorStep m r.m := by
  rw [DecodeInt_eq h]
  by_cases hc : m.off + 4 ≤ m.size
  · rw [if_pos hc]
    exact ⟨_, rfl, CursorStep.forward h (by omega) hc⟩
  · rw [if_neg hc]
    exact ⟨_, rfl, CursorStep.refl h⟩

theorem DecodeUInt_step {m : MTProto} (h : WF m) :
    ∃ r, DecodeUInt m = some r ∧ CursorStep m r.m := by
  rw [DecodeUInt_eq h]
  by_cases hc : m.off + 4 ≤ m.size
  · rw [if_pos hc]
    exact ⟨_, rfl, CursorStep.forward h (by omega) hc⟩
  · rw [if_neg hc]
    exact ⟨_, rfl, CursorStep.refl h⟩

theorem DecodeBytes_step {m : MTProto} (h : WF m) {n : Int} (h0 : 0 ≤ n)
    (hn : m.off + n < 9223372036854775808) :
    ∃ r, DecodeBytes m n = some r ∧ CursorStep m r.m := by
  rw [DecodeBytes_eq_int h h0 hn]
  by_cases hc : m.off + n ≤ m.size
  · rw [if_pos hc]
    exact ⟨_, rfl, CursorStep.forward h h0 hc⟩
  · rw [if_neg hc]
    exact ⟨_, rfl, CursorStep.refl h⟩

theorem DecodeStringBytes_step {m : MTProto} (h : WF m) :
    ∃ r, DecodeStringBytes m = some r ∧ CursorStep m r.m := by
  by_cases hlt : m.off < m.size
  · obtain ⟨b, hb⟩ := getElem?_of_lt h hlt
    obtain ⟨s1, s2⟩ := DecodeStringBytes_spec h hb
    by_cases hfit : m.off + (strHdr b + strLen m.buf m.off.toNat b
        + strPad (strHdr b + strLen m.buf m.off.toNat b) : Nat) ≤ m.size
    · exact ⟨_, s1 hfit, CursorStep.forward h (by omega) hfit⟩
    · obtain ⟨k, e, hk1, hk2, hk⟩ := s2 (by omega)
      exact ⟨_, hk, CursorStep.forward h (by omega) hk2⟩
  · exact ⟨_, DecodeStringBytes_empty h (by omega), CursorStep.refl h⟩

theorem DecodeBigInt_step {m : MTProto} (h : WF m) :
    ∃ r, DecodeBigInt m = some r ∧ CursorStep m r.m := by
  obtain ⟨⟨rm, rv, re⟩, hr, hs⟩ := DecodeStringBytes_step h
  unfold DecodeBigInt
  rw [hr]
  cases re with
  | none => exact ⟨_, rfl, hs⟩
  | some e => exact ⟨_, rfl, hs⟩

theorem vectorLoop_step {m : MTProto} (h : WF m) (n : Nat) (x : List Nat) :
    ∃ r, vectorLoop n m x = some r ∧ CursorStep m r.m := by
  by_cases hfit : m.off + 8 * (n : Int) ≤ m.size
  · exact ⟨_, vectorLoop_ok h n x hfit, CursorStep.forward h (by omega) hfit⟩
  · obtain ⟨k, _, hk, hv⟩ := vectorLoop_short h n x (by omega)
    exact ⟨_, hv, CursorStep.forward h (by omega) hk⟩

theorem DecodeVectorLong_step {m : MTProto} (h : WF m) :
    ∃ r, DecodeVectorLong m = some r ∧ CursorStep m r.m := by
  rw [DecodeVectorLong_eq h]
  by_cases h4 : m.off + 4 ≤ m.size
  · rw [if_pos h4]
    by_cases htag : vecTag m = vector
    · rw [if_neg (by simpa using htag)]
      by_cases h8 : m.off + 8 ≤ m.size
      · rw [if_pos h8]
        by_cases hc : vecCount m ≤ 0
        · rw [if_pos hc]
          exact ⟨_, rfl, CursorStep.forward h (by omega) h8⟩
        · rw [if_neg hc]
          have hs8 := CursorStep.forward h (by omega) h8
          obtain ⟨r, hr, hs⟩ := vectorLoop_step hs8.1 (vecCount m).toNat []
          exact ⟨r, hr, hs8.trans hs⟩
      · rw [if_neg h8]
        exact ⟨_, rfl, CursorStep.forward h (by omega) h4⟩
    · rw [if_pos (by simpa using htag)]
      exact ⟨_, rfl, CursorStep.forward h (by omega) h4⟩
  · rw [if_neg h4]
    exact ⟨_, rfl, CursorStep.refl h⟩

/-! ### Records -/

theorem WF.off_le {m : MTProto} (h : WF m) : m.off ≤ 281474976710656 := by
  obtain ⟨h1, h2, h3, h4⟩ := h
  unfold maxAlloc at h4
  omega

theorem enter_step {m : MTProto} (h : WF m) (h4 : m.off + 4 ≤ m.size) :
    CursorStep m (enter m) :=
  (CursorStep.forward h (by omega) h4).of_eq rfl rfl rfl

theorem DecodePacket_eq {m : MTProto} (h : WF m) :
    DecodePacket m =
      if m.off + 4 ≤ m.size then
        if packetTag m = resPQ then
          match DecodeBytes (enter m) 16 with
          | none => none
          | some rn =>
            match DecodeBytes rn.m 16 with
            | none => none
            | some rs =>
              match DecodeBigInt rs.m with
              | none => none
              | some rp =>
                match DecodeVectorLong rp.m with
                | none => none
                | some rf =>
                  match rf.err with
                  | some e => some ⟨store rf.m ⟨rn.val, rs.val, rp.val, rf.val⟩, (), some e⟩
                  | none =>
                    some ⟨leave (store rf.m ⟨rn.val, rs.val, rp.val, rf.val⟩), (), none⟩
        else some ⟨enter m, (), some (Err.unknownConstructor (packetTag m))⟩
      else some ⟨m, (), some Err.shortUInt⟩ := by
  unfold DecodePacket
  rw [DecodeUInt_eq h]
  by_cases h4 : m.off + 4 ≤ m.size
  · rw [if_pos h4, if_pos h4]
    simp only [advance, enter, store, leave, packetTag]
  · rw [if_neg h4, if_neg h4]

/-- The `resPQ` case of `DecodePacket` on a well-formed state: the four field
decoders return one after the other, each keeping the cursor invariant, and the
result of `DecodePacket` is built from their results and the error of the last. -/
theorem DecodePacket_resPQ {m : MTProto} (h : WF m) (h4 : m.off + 4 ≤ m.size)
    (htag : packetTag m = resPQ) :
    ∃ rn rs rp rf,
      DecodeBytes (enter m) 16 = some rn ∧ DecodeBytes rn.m 16 = some rs ∧
      DecodeBigInt rs.m = some rp ∧ DecodeVectorLong rp.m = some rf ∧
      CursorStep (enter m) rn.m ∧ CursorStep rn.m rs.m ∧ CursorStep rs.m rp.m ∧
      CursorStep rp.m rf.m ∧
      DecodePacket m =
        match rf.err with
        | some e => some ⟨store rf.m ⟨rn.val, rs.val, rp.val, rf.val⟩, (), some e⟩
        | none => some ⟨leave (store rf.m ⟨rn.val, rs.val, rp.val, rf.val⟩), (), none⟩ := by
  have he := enter_step h h4
  obtain ⟨rn, hrn, sn⟩ := DecodeBytes_step he.1 (n := 16) (by omega)
    (by have := he.1.off_le; omega)
  obtain ⟨rs, hrs, ss⟩ := DecodeBytes_step sn.1 (n := 16) (by omega)
    (by have := sn.1.off_le; omega)
  obtain ⟨rp, hrp, sp⟩ := DecodeBigInt_step ss.1
  obtain ⟨rf, hrf, sf⟩ := DecodeVectorLong_step sp.1
  refine ⟨rn, rs, rp, rf, hrn, hrs, hrp, hrf, sn, ss, sp, sf, ?_⟩
  rw [DecodePacket_eq h, if_pos h4, if_pos htag, hrn]
  simp only []
  rw [hrs]
  simp only []
  rw [hrp]
  simp only []
  rw [hrf]

/-! ### Big integers -/

theorem bigEndian_foldl (bs : List Byte) (acc : Nat) :
    bs.foldl (fun acc b => acc * 256 + b.val) acc = acc * 256 ^ bs.length + beValue bs := by
  induction bs generalizing acc with
  | nil => simp [beValue]
  | cons b bs ih =>
    simp only [List.foldl_cons, ih, beValue, List.length_cons, pow_succ]
    ring

theorem SetBytes_zero_cons (bs : List Byte) : SetBytes ((0 : Byte) :: bs) = (beValue bs : Int) := by
  unfold SetBytes bigEndian
  rw [List.foldl_cons, bigEndian_foldl]
  simp

/-! ### The bytes `SendPacket` writes -/

theorem addLength_eq (x : List Byte) (hw : x.length / 4 < 16777216) :
    addLength x = wordHeader (x.length / 4) ++ x := by
  unfold addLength wordHeader
  simp only []
  by_cases hs : x.length / 4 < 127
  · rw [if_pos hs, if_pos hs]
    rfl
  · rw [if_neg hs, if_neg hs]
    generalize x.length / 4 = w at *
    have hor : w <<< 8 ||| 127 = 256 * w + 127 := by
      rw [Nat.shiftLeft_eq, Nat.mul_comm]
      exact (@Nat.mul_add_lt_is_or 8 127 (by decide) w).symm
    have hv : (int32 ((256 * w + 127 : Nat) : Int) % 4294967296).toNat = 256 * w + 127 := by
      unfold int32
      push_cast
      omega
    rw [hor]
    unfold EncodeInt
    rw [hv]
    simp only [encodeLE, List.cons_append, List.nil_append, List.cons.injEq, Fin.mk.injEq,
      and_true]
    refine ⟨?_, by omega, by omega, by omega⟩
    apply Fin.ext
    show (256 * w + 127) % 256 = 127
    omega

theorem EncodeInt_int32_small (n : Nat) (hn : n < 2147483648) :
    EncodeInt (int32 (n : Int)) = encodeLE 4 n := by
  have hv : (int32 (n : Int) % 4294967296).toNat = n := by
    unfold int32
    omega
  unfold EncodeInt
  rw [hv]

theorem EncodeLong_zero : EncodeLong 0 = List.replicate 8 (0 : Byte) := by
  decide

/-! ### The text of the unknown-constructor error -/

theorem hexDigit_inj : ∀ a < 16, ∀ b < 16, hexDigit a = hexDigit b → a = b := by
  decide

theorem hex08_inj {c d : Nat} (hc : c < 4294967296) (hd : d < 4294967296)
    (h : hex08 c = hex08 d) : c = d := by
  unfold hex08 at h
  simp only [List.cons.injEq, and_true] at h
  obtain ⟨h7, h6, h5, h4, h3, h2, h1, h0⟩ := h
  have e7 := hexDigit_inj _ (Nat.mod_lt _ (by decide)) _ (Nat.mod_lt _ (by decide)) h7
  have e6 := hexDigit_inj _ (Nat.mod_lt _ (by decide)) _ (Nat.mod_lt _ (by decide)) h6
  have e5 := hexDigit_inj _ (Nat.mod_lt _ (by decide)) _ (Nat.mod_lt _ (by decide)) h5
  have e4 := hexDigit_inj _ (Nat.mod_lt _ (by decide)) _ (Nat.mod_lt _ (by decide)) h4
  have e3 := hexDigit_inj _ (Nat.mod_lt _ (by decide)) _ (Nat.mod_lt _ (by decide)) h3
  have e2 := hexDigit_inj _ (Nat.mod_lt _ (by decide)) _ (Nat.mod_lt _ (by decide)) h2
  have e1 := hexDigit_inj _ (Nat.mod_lt _ (by decide)) _ (Nat.mod_lt _ (by decide)) h1
  have e0 := hexDigit_inj _ (Nat.mod_lt _ (by decide)) _ (Nat.mod_lt _ (by decide)) h0
  omega

theorem unknownConstructorText_inj {c d : Nat} (hc : c < 4294967296) (hd : d < 4294967296)
    (h : unknownConstructorText c = unknownConstructorText d) : c = d := by
  unfold unknownConstructorText at h
  have h2 := congrArg String.data h
  rw [String.data_append, String.data_append] at h2
  exact hex08_inj hc hd (List.append_cancel_left h2)

theorem packetTag_lt (m : MTProto) : packetTag m < 4294967296 := by
  unfold packetTag
  have h1 := littleEndian_lt (bytesAt m.buf m.off.toNat 4)
  have h2 := bytesAt_length_le m.buf m.off.toNat 4
  have h3 : 256 ^ (bytesAt m.buf m.off.toNat 4).length ≤ 256 ^ 4 :=
    Nat.pow_le_pow_right (by decide) h2
  omega

/-- The errors `DecodeVectorLong` returns on a well-formed state. -/
theorem DecodeVectorLong_err {m : MTProto} (h : WF m) {r : Ret (List Nat)}
    (hr : DecodeVectorLong m = some r) :
    r.err = none ∨ r.err = some Err.shortUInt ∨ r.err = some Err.vectorConstructor ∨
      r.err = some Err.shortInt ∨ r.err = some Err.vectorSize ∨ r.err = some Err.shortLong := by
  rw [DecodeVectorLong_eq h] at hr
  by_cases h4 : m.off + 4 ≤ m.size
  · rw [if_pos h4] at hr
    by_cases htag : vecTag m = vector
    · rw [if_neg (by simpa using htag)] at hr
      by_cases h8 : m.off + 8 ≤ m.size
      · rw [if_pos h8] at hr
        by_cases hc : vecCount m ≤ 0
        · rw [if_pos hc] at hr
          cases Option.some.inj hr
          exact Or.inr (Or.inr (Or.inr (Or.inr (Or.inl rfl))))
        · rw [if_neg hc] at hr
          have hwf : WF (advance m 8) := h.advance (by omega) h8
          by_cases hfit : (advance m 8).off + 8 * ((vecCount m).toNat : Int) ≤ (advance m 8).size
          · rw [vectorLoop_ok hwf _ _ hfit] at hr
            cases Option.some.inj hr
            exact Or.inl rfl
          · obtain ⟨k, _, _, hv⟩ := vectorLoop_short hwf (vecCount m).toNat [] (by omega)
            rw [hr] at hv
            cases Option.some.inj hv
            exact Or.inr (Or.inr (Or.inr (Or.inr (Or.inr rfl))))
      · rw [if_neg h8] at hr
        cases Option.some.inj hr
        exact Or.inr (Or.inr (Or.inr (Or.inl rfl)))
    · rw [if_pos (by simpa using htag)] at hr
      cases Option.some.inj hr
      exact Or.inr (Or.inr (Or.inl rfl))
  · rw [if_neg h4] at hr
    cases Option.some.inj hr
    exact Or.inr (Or.inl rfl)

theorem DecodePacket_step {m : MTProto} (h : WF m) :
    ∃ r, DecodePacket m = some r ∧ CursorStep m r.m := by
  by_cases h4 : m.off + 4 ≤ m.size
  · by_cases htag : packetTag m = resPQ
    · obtain ⟨rn, rs, rp, ⟨fm, fv, fe⟩, _, _, _, _, sn, ss, sp, sf, hD⟩ :=
        DecodePacket_resPQ h h4 htag
      have hchain : CursorStep m fm :=
        (((enter_step h h4).trans sn).trans ss).trans (sp.trans sf)
      cases fe with
      | none => exact ⟨_, hD, hchain.of_eq rfl rfl rfl⟩
      | some e => exact ⟨_, hD, hchain.of_eq rfl rfl rfl⟩
    · rw [DecodePacket_eq h, if_pos h4, if_neg htag]
      exact ⟨_, rfl, enter_step h h4⟩
  · rw [DecodePacket_eq h, if_neg h4]
    exact ⟨_, rfl, CursorStep.refl h⟩

/-- `DecodeBytes` with a non-negative length either panics or keeps the cursor
invariant. -/
theorem DecodeBytes_step_of_some {m : MTProto} (h : WF m) {n : Int} (h0 : 0 ≤ n)
    {r : Ret (List Byte)} (hr : DecodeBytes m n = some r) : CursorStep m r.m := by
  by_cases hn : m.off + n < 9223372036854775808
  · obtain ⟨r', hr', hs⟩ := DecodeBytes_step h h0 hn
    rw [hr] at hr'
    cases Option.some.inj hr'
    exact hs
  · unfold DecodeBytes at hr
    by_cases c1 : int64 (m.off + n) > m.size
    · rw [if_pos c1] at hr
      cases Option.some.inj hr
      exact CursorStep.refl h
    · rw [if_neg c1] at hr
      have hmax : (maxAlloc : Int) = 281474976710656 := rfl
      have := h.off_le
      rw [if_pos (by omega)] at hr
      exact Option.noConfusion hr

/-! ### Padding -/

theorem bytesAt_getElem? (buf : List Byte) (a k j : Nat) :
    (bytesAt buf a k)[j]? = if j < k then buf[a + j]? else none := by
  unfold bytesAt
  rw [List.getElem?_take, List.getElem?_drop]

theorem bytesAt_congr {buf1 buf2 : List Byte} {a k : Nat}
    (hag : ∀ j, j < k → buf1[a + j]? = buf2[a + j]?) :
    bytesAt buf1 a k = bytesAt buf2 a k := by
  apply List.ext_getElem?
  intro j
  rw [bytesAt_getElem?, bytesAt_getElem?]
  by_cases hj : j < k
  · rw [if_pos hj, if_pos hj, hag j hj]
  · rw [if_neg hj, if_neg hj]

theorem strHdr_pos (b : Byte) : 1 ≤ strHdr b := by
  unfold strHdr
  split <;> omega

theorem strHdr_le (b : Byte) : strHdr b ≤ 4 := by
  unfold strHdr
  split <;> omega

/-- The result of `DecodeStringBytes` on a well-formed state with the byte `b` at
the cursor, as a function of the cursor, the size, the header length, the string
length and the padding. -/
theorem DecodeStringBytes_nf {m : MTProto} (h : WF m) {b : Byte}
    (hb : m.buf[m.off.toNat]? = some b) :
    DecodeStringBytes m =
      if m.off + (strHdr b : Int) ≤ m.size then
        if m.off + (strHdr b : Int) + (strLen m.buf m.off.toNat b : Int) ≤ m.size then
          if m.off + (strHdr b : Int) + (strLen m.buf m.off.toNat b : Int)
              + (strPad (strHdr b + strLen m.buf m.off.toNat b) : Int) ≤ m.size then
            some ⟨advance m ((strHdr b : Int) + ((strLen m.buf m.off.toNat b : Int)
                + (strPad (strHdr b + strLen m.buf m.off.toNat b) : Int))),
              bytesAt m.buf (m.off.toNat + strHdr b) (strLen m.buf m.off.toNat b), none⟩
          else
            some ⟨advance m ((strHdr b : Int) + (strLen m.buf m.off.toNat b : Int)), [],
              some Err.shortStringPadding⟩
        else some ⟨advance m (strHdr b : Int), [], some Err.shortStringSize⟩
      else some ⟨advance m 1, [], some Err.shortString⟩ := by
  have hlt := getElem?_lt hb
  have hn := strLen_le m.buf m.off.toNat b
  have hp := strPad_le (strHdr b + strLen m.buf m.off.toNat b)
  have hwf := h
  obtain ⟨h1, h2, h3, h4⟩ := h
  by_cases he : b.val = 254
  · have e1 : strHdr b = 4 := by simp [strHdr, he]
    have e2 : strLen m.buf m.off.toNat b = littleEndian (bytesAt m.buf (m.off.toNat + 1) 3) := by
      simp [strLen, he]
    have e3 : strPad (4 + strLen m.buf m.off.toNat b)
        = (4 - strLen m.buf m.off.toNat b % 4) % 4 := by
      unfold strPad; omega
    rw [DecodeStringBytes_long hwf hb he, ← e2]
    rw [e1] at hp ⊢
    generalize strLen m.buf m.off.toNat b = n at *
    rw [e3] at hp ⊢
    generalize (4 - n % 4) % 4 = p at *
    simp only [Nat.cast_ofNat]
    by_cases hc : m.off + 4 ≤ m.size
    · have hwf4 : WF (advance m 4) := hwf.advance (by omega) hc
      have t : (m.off + 4).toNat = m.off.toNat + 4 := by omega
      rw [if_pos hc, if_pos hc, stringBody_eq hwf4 (by omega) hp]
      simp only [advance_off, advance_size, advance_buf, advance_advance, t]
    · rw [if_neg hc, if_neg hc]
  · have e1 : strHdr b = 1 := by simp [strHdr, he]
    have e2 : strLen m.buf m.off.toNat b = b.val := by simp [strLen, he]
    have e3 : strPad (1 + b.val) = (4 - (b.val + 1) % 4) % 4 := by
      unfold strPad; omega
    rw [DecodeStringBytes_short hwf hb he]
    rw [e1, e2] at hp ⊢
    rw [e3] at hp ⊢
    generalize (4 - (b.val + 1) % 4) % 4 = p at *
    have hb256 := b.isLt
    have hwf1 : WF (advance m 1) := hwf.advance (by omega) (by omega)
    have t : (m.off + 1).toNat = m.off.toNat + 1 := by omega
    simp only [Nat.cast_one]
    rw [if_pos (show m.off + 1 ≤ m.size by omega), stringBody_eq hwf1 (by omega) hp]
    simp only [advance_off, advance_size, advance_buf, advance_advance, t]

/-- A successful `DecodeVectorLong` consumed at least 16 bytes and returns at least
one value. -/
theorem DecodeVectorLong_success {m : MTProto} (h : WF m) {r : Ret (List Nat)}
    (hr : DecodeVectorLong m = some r) (he : r.err = none) :
    m.off + 16 ≤ m.size ∧ r.val ≠ [] := by
  rw [DecodeVectorLong_eq h] at hr
  by_cases h4 : m.off + 4 ≤ m.size
  · rw [if_pos h4] at hr
    by_cases htag : vecTag m = vector
    · rw [if_neg (by simpa using htag)] at hr
      by_cases h8 : m.off + 8 ≤ m.size
      · rw [if_pos h8] at hr
        by_cases hc : vecCount m ≤ 0
        · rw [if_pos hc] at hr
          cases Option.some.inj hr
          exact Option.noConfusion he
        · rw [if_neg hc] at hr
          have hwf : WF (advance m 8) := h.advance (by omega) h8
          generalize vecCount m = c at *
          by_cases hfit : (advance m 8).off + 8 * (c.toNat : Int) ≤ (advance m 8).size
          · rw [vectorLoop_ok hwf _ _ hfit] at hr
            have hv : r.val = [] ++ longsAt (advance m 8).buf (advance m 8).off.toNat c.toNat := by
              have := congrArg Ret.val (Option.some.inj hr)
              exact this.symm
            simp only [advance_off, advance_size] at hfit
            refine ⟨by omega, fun hnil => ?_⟩
            have hl := congrArg List.length hv
            rw [hnil, List.nil_append, longsAt_length] at hl
            simp only [List.length_nil] at hl
            omega
          · obtain ⟨k, _, _, hv⟩ := vectorLoop_short hwf c.toNat [] (by omega)
            rw [hr] at hv
            cases Option.some.inj hv
            exact Option.noConfusion he
      · rw [if_neg h8] at hr
        cases Option.some.inj hr
        exact Option.noConfusion he
    · rw [if_pos (by simpa using htag)] at hr
      cases Option.some.inj hr
      exact Option.noConfusion he
  · rw [if_neg h4] at hr
    cases Option.some.inj hr
    exact Option.noConfusion he

/-! ## The claims -/

set_option maxRecDepth 100000 in
/-- C1 (evaluation at the failing input).  On `maskedRecord` the `pq` field decode
fails with the short-buffer error, the fingerprint vector after it decodes, and
`DecodePacket` returns nil and stores a record whose `pq` is the nil pointer; the
same record reaches `Read` through `maskedStream`, delivered in one chunk, and
passes the checks of `Handshake`. -/
theorem DecodePacket_surfaces_nil_pq :
    (DecodeBigInt (advance (mkState maskedRecord 0) 36)).map (fun r => (r.val, r.err))
        = some (none, some Err.shortStringSize) ∧
    DecodePacket (mkState maskedRecord 0)
        = some ⟨{ mkState maskedRecord 0 with
                    off := 53,
                    data := some ⟨List.replicate 16 0x11, List.replicate 16 0x22, none,
                      [14101943622620965665]⟩ }, (), none⟩ ∧
    (Read (mkState [] 0) [maskedStream]).map (fun r => (r.err, r.m.data))
        = some (none, some ⟨List.replicate 16 0x11, List.replicate 16 0x22, none,
            [14101943622620965665]⟩) ∧
    (Handshake (mkState [] 0) (List.replicate 16 0x11) none [maskedStream]).map (fun r => r.err)
        = some none := by
  decide

set_option maxRecDepth 100000 in
/-- C2 (counterexample).  The buffer `lengthByte255` starts with the byte 255 and
the three bytes after it read 1 little-endian; `DecodeStringBytes` does not return
the one byte after a four-byte header, it returns the 255 bytes after the first
byte. -/
theorem length_byte_255_is_taken_as_length :
    WF (mkState lengthByte255 0) ∧
    lengthByte255[0]? = some 255 ∧
    littleEndian (bytesAt lengthByte255 1 3) = 1 ∧
    DecodeStringBytes (mkState lengthByte255 0)
      = some ⟨advance (mkState lengthByte255 0) 256, bytesAt lengthByte255 1 255, none⟩ ∧
    (bytesAt lengthByte255 1 255).length = 255 ∧
    bytesAt lengthByte255 1 255 ≠ bytesAt lengthByte255 4 1 := by
  decide

/-- C2 (amended).  On a well-formed state with a byte `b` at the cursor,
`DecodeStringBytes` returns normally; it succeeds exactly when header, string and
padding fit in the buffer; and when it succeeds the string it returns has length
`b` and is the `b` bytes after the first byte if `b` is not 254 (255 included),
and has the length given little-endian by the next three bytes and is that many
bytes after the four-byte header if `b` is 254. -/
theorem DecodeStringBytes_length_rule (m : MTProto) (h : WF m) (b : Byte)
    (hb : m.buf[m.off.toNat]? = some b) :
    (∃ r, DecodeStringBytes m = some r) ∧
    ((∃ r, DecodeStringBytes m = some r ∧ r.err = none) ↔
      m.off + (strHdr b + strLen m.buf m.off.toNat b
        + strPad (strHdr b + strLen m.buf m.off.toNat b) : Nat) ≤ m.size) ∧
    (∀ r, DecodeStringBytes m = some r → r.err = none →
      (b.val ≠ 254 →
        r.val.length = b.val ∧ r.val = bytesAt m.buf (m.off.toNat + 1) b.val) ∧
      (b.val = 254 →
        r.val.length = littleEndian (bytesAt m.buf (m.off.toNat + 1) 3) ∧
        r.val = bytesAt m.buf (m.off.toNat + 4)
          (littleEndian (bytesAt m.buf (m.off.toNat + 1) 3)))) := by
  obtain ⟨s1, s2⟩ := DecodeStringBytes_spec h hb
  refine ⟨?_, ?_, ?_⟩
  · by_cases hfit : m.off + (strHdr b + strLen m.buf m.off.toNat b
        + strPad (strHdr b + strLen m.buf m.off.toNat b) : Nat) ≤ m.size
    · exact ⟨_, s1 hfit⟩
    · obtain ⟨k, e, _, _, hk⟩ := s2 (by omega)
      exact ⟨_, hk⟩
  · constructor
    · rintro ⟨r, hr, he⟩
      obtain ⟨b2, hb2, hfit, _⟩ := DecodeStringBytes_ok h hr he
      rw [hb] at hb2
      cases Option.some.inj hb2
      exact hfit
    · intro hfit
      exact ⟨_, s1 hfit, rfl⟩
  · intro r hr he
    obtain ⟨b2, hb2, hfit, hreq⟩ := DecodeStringBytes_ok h hr he
    rw [hb] at hb2
    cases Option.some.inj hb2
    obtain ⟨h1, h2, h3, h4⟩ := h
    have hlen : (bytesAt m.buf (m.off.toNat + strHdr b) (strLen m.buf m.off.toNat b)).length
        = strLen m.buf m.off.toNat b := by
      apply bytesAt_length
      have := strPad_le (strHdr b + strLen m.buf m.off.toNat b)
      push_cast at hfit
      omega
    subst hreq
    constructor
    · intro hne
      have e1 : strHdr b = 1 := by simp [strHdr, hne]
      have e2 : strLen m.buf m.off.toNat b = b.val := by simp [strLen, hne]
      rw [e1, e2] at hlen
      simp only [e1, e2]
      exact ⟨hlen, trivial⟩
    · intro heq
      have e1 : strHdr b = 4 := by simp [strHdr, heq]
      have e2 : strLen m.buf m.off.toNat b
          = littleEndian (bytesAt m.buf (m.off.toNat + 1) 3) := by simp [strLen, heq]
      rw [e1, e2] at hlen
      simp only [e1, e2]
      exact ⟨hlen, trivial⟩

/-- C2 (instance).  The rule at the buffer `fe 02 00 00 61 62 00 00`: the state is
well formed, the byte at the cursor is the marker 254, and the decode succeeds. -/
theorem DecodeStringBytes_length_rule_witness :
    WF (mkState [254, 2, 0, 0, 0x61, 0x62, 0, 0] 0) ∧
    (mkState [254, 2, 0, 0, 0x61, 0x62, 0, 0] 0).buf[
      (mkState [254, 2, 0, 0, 0x61, 0x62, 0, 0] 0).off.toNat]? = some 254 ∧
    ∃ r, DecodeStringBytes (mkState [254, 2, 0, 0, 0x61, 0x62, 0, 0] 0) = some r ∧
      r.err = none :=
  ⟨by decide, by decide,
    (DecodeStringBytes_length_rule (mkState [254, 2, 0, 0, 0x61, 0x62, 0, 0] 0) (by decide) 254
      (by decide)).2.1.mpr (by decide)⟩

/-- C3.  String round trip: on a well-formed state whose buffer holds the TL
encoding of `s` at the cursor (`pre` before it, `post` after it), with `s` shorter
than 2^24 bytes, `DecodeStringBytes` succeeds, returns `s`, and moves the cursor
forward by the length of the encoding; nothing else in the state changes. -/
theorem string_round_trip (m : MTProto) (h : WF m) (pre s post : List Byte)
    (hbuf : m.buf = pre ++ encodeTLString s ++ post) (hoff : m.off = (pre.length : Int))
    (hs : s.length < 16777216) :
    DecodeStringBytes m = some ⟨advance m ((encodeTLString s).length : Nat), s, none⟩ := by
  have hoffn : m.off.toNat = pre.length := by omega
  have hsize : m.size = ((pre ++ encodeTLString s ++ post).length : Nat) := by
    rw [← hbuf]; exact h.2.2.1
  by_cases hn : s.length < 254
  · -- short form
    have henc : encodeTLString s
        = (⟨s.length % 256, Nat.mod_lt _ (by decide)⟩ : Byte) :: (s
          ++ List.replicate ((4 - (1 + s.length) % 4) % 4) (0 : Byte)) := by
      simp [encodeTLString, hn]
    generalize hbdef : (⟨s.length % 256, Nat.mod_lt _ (by decide)⟩ : Byte) = b at henc
    have hbv : b.val = s.length := by
      rw [← hbdef]
      show s.length % 256 = s.length
      omega
    have hb : m.buf[m.off.toNat]? = some b := by
      rw [hbuf, henc, hoffn, List.append_assoc]
      exact getElem?_mid pre _ b _ rfl
    have hne : b.val ≠ 254 := by omega
    have e1 : strHdr b = 1 := by simp [strHdr, hne]
    have e2 : strLen m.buf m.off.toNat b = s.length := by
      unfold strLen
      rw [if_neg hne]
      exact hbv
    have hlen : (encodeTLString s).length = 1 + s.length + strPad (1 + s.length) := by
      rw [henc]
      simp [strPad]
      omega
    have hval : bytesAt m.buf (m.off.toNat + 1) s.length = s := by
      rw [hbuf, henc, hoffn]
      have : pre ++ b :: (s ++ List.replicate ((4 - (1 + s.length) % 4) % 4) (0 : Byte)) ++ post
          = (pre ++ [b]) ++ s ++ (List.replicate ((4 - (1 + s.length) % 4) % 4) (0 : Byte) ++ post) := by
        simp
      rw [this]
      exact bytesAt_mid _ _ _ _ _ (by simp) rfl
    have hfit := (DecodeStringBytes_spec h hb).1
    rw [e1, e2, hval, ← hlen] at hfit
    apply hfit
    rw [hsize, hoff]
    simp only [List.length_append]
    push_cast
    omega
  · -- long form
    have henc : encodeTLString s
        = (254 : Byte) :: (encodeLE 3 s.length ++ (s
          ++ List.replicate ((4 - (4 + s.length) % 4) % 4) (0 : Byte))) := by
      simp [encodeTLString, hn, encodeLE_length]
    have hb : m.buf[m.off.toNat]? = some (254 : Byte) := by
      rw [hbuf, henc, hoffn, List.append_assoc]
      exact getElem?_mid pre _ 254 _ rfl
    have e1 : strHdr (254 : Byte) = 4 := by decide
    have hlen3 : bytesAt m.buf (m.off.toNat + 1) 3 = encodeLE 3 s.length := by
      rw [hbuf, henc, hoffn]
      have : pre ++ (254 : Byte) :: (encodeLE 3 s.length ++ (s
              ++ List.replicate ((4 - (4 + s.length) % 4) % 4) (0 : Byte))) ++ post
          = (pre ++ [254]) ++ encodeLE 3 s.length
            ++ (s ++ List.replicate ((4 - (4 + s.length) % 4) % 4) (0 : Byte) ++ post) := by
        simp
      rw [this]
      exact bytesAt_mid _ _ _ _ _ (by simp) (by rw [encodeLE_length])
    have e2 : strLen m.buf m.off.toNat (254 : Byte) = s.length := by
      have : ((254 : Byte)).val = 254 := by decide
      simp only [strLen, this, if_true]
      rw [hlen3, littleEndian_encodeLE]
      norm_num
      omega
    have hlen : (encodeTLString s).length = 4 + s.length + strPad (4 + s.length) := by
      rw [henc]
      simp [strPad, encodeLE_length]
      omega
    have hval : bytesAt m.buf (m.off.toNat + 4) s.length = s := by
      rw [hbuf, henc, hoffn]
      have : pre ++ (254 : Byte) :: (encodeLE 3 s.length ++ (s
              ++ List.replicate ((4 - (4 + s.length) % 4) % 4) (0 : Byte))) ++ post
          = (pre ++ (254 : Byte) :: encodeLE 3 s.length) ++ s
            ++ (List.replicate ((4 - (4 + s.length) % 4) % 4) (0 : Byte) ++ post) := by
        simp
      rw [this]
      exact bytesAt_mid _ _ _ _ _ (by simp [encodeLE_length]) rfl
    have hfit := (DecodeStringBytes_spec h hb).1
    rw [e1, e2, hval, ← hlen] at hfit
    apply hfit
    rw [hsize, hoff]
    simp only [List.length_append]
    push_cast
    omega

/-- C3 (instances).  The two examples of the specification: `61 62 63` is encoded
as `03 61 62 63` and `41` as `01 41 00 00`, and both decode back. -/
theorem string_round_trip_witness :
    (encodeTLString [0x61, 0x62, 0x63] = [0x03, 0x61, 0x62, 0x63] ∧
      DecodeStringBytes (mkState [0x03, 0x61, 0x62, 0x63] 0)
        = some ⟨advance (mkState [0x03, 0x61, 0x62, 0x63] 0) 4, [0x61, 0x62, 0x63], none⟩) ∧
    (encodeTLString [0x41] = [0x01, 0x41, 0x00, 0x00] ∧
      DecodeStringBytes (mkState [0x01, 0x41, 0x00, 0x00] 0)
        = some ⟨advance (mkState [0x01, 0x41, 0x00, 0x00] 0) 4, [0x41], none⟩) :=
  ⟨⟨by decide,
      string_round_trip (mkState [0x03, 0x61, 0x62, 0x63] 0) (by decide) [] [0x61, 0x62, 0x63] []
        (by decide) (by decide) (by decide)⟩,
    ⟨by decide,
      string_round_trip (mkState [0x01, 0x41, 0x00, 0x00] 0) (by decide) [] [0x41] []
        (by decide) (by decide) (by decide)⟩⟩

/-- C4.  A successful `DecodeStringBytes` on a well-formed state consumes the
padding.  With `b` the byte at the cursor and `n` the length of the returned
string: if `b` is not 254 (short form) the cursor advances by
`1 + n + (4 - (n + 1) mod 4) mod 4`, which is `4 * ceil((n + 1) / 4)`; if `b` is
254 (long form) it advances by `4 + n + (4 - n mod 4) mod 4`, which is
`4 * ceil((n + 4) / 4)`.  In both cases the advance is a multiple of 4 and only
the cursor changes. -/
theorem DecodeStringBytes_consumes_padding (m : MTProto) (h : WF m) (r : Ret (List Byte))
    (hr : DecodeStringBytes m = some r) (he : r.err = none) :
    ∃ b, m.buf[m.off.toNat]? = some b ∧
      (b.val ≠ 254 →
        r.val.length = b.val ∧
        r.m.off - m.off = ((1 + r.val.length + (4 - (r.val.length + 1) % 4) % 4 : Nat) : Int) ∧
        r.m.off - m.off = ((4 * ((r.val.length + 1 + 3) / 4) : Nat) : Int)) ∧
      (b.val = 254 →
        r.m.off - m.off = ((4 + r.val.length + (4 - r.val.length % 4) % 4 : Nat) : Int) ∧
        r.m.off - m.off = ((4 * ((r.val.length + 4 + 3) / 4) : Nat) : Int)) ∧
      (r.m.off - m.off) % 4 = 0 ∧
      r.m = advance m (r.m.off - m.off) := by
  obtain ⟨b, hb, hfit, hreq⟩ := DecodeStringBytes_ok h hr he
  refine ⟨b, hb, ?_⟩
  obtain ⟨h1, h2, h3, h4⟩ := h
  have hlen : (bytesAt m.buf (m.off.toNat + strHdr b) (strLen m.buf m.off.toNat b)).length
      = strLen m.buf m.off.toNat b := by
    apply bytesAt_length
    have := strPad_le (strHdr b + strLen m.buf m.off.toNat b)
    push_cast at hfit
    omega
  subst hreq
  simp only [advance_off, hlen, add_sub_cancel_left]
  by_cases hb254 : b.val = 254
  · have e1 : strHdr b = 4 := by simp [strHdr, hb254]
    rw [e1]
    generalize strLen m.buf m.off.toNat b = n
    unfold strPad
    refine ⟨fun hne => absurd hb254 hne, fun _ => ⟨?_, ?_⟩, ?_, ?_⟩
    · omega
    · omega
    · omega
    · simp [advance]
  · have e1 : strHdr b = 1 := by simp [strHdr, hb254]
    have e2 : strLen m.buf m.off.toNat b = b.val := by simp [strLen, hb254]
    rw [e1, e2]
    unfold strPad
    refine ⟨fun _ => ⟨rfl, ?_, ?_⟩, fun heq => absurd heq hb254, ?_, ?_⟩
    · omega
    · omega
    · omega
    · simp [advance]

/-- C4 (instance).  The string `01 41 00 00`: one byte of header, one of string,
two of padding; the cursor advances by 4. -/
theorem DecodeStringBytes_consumes_padding_witness :
    WF (mkState [0x01, 0x41, 0x00, 0x00] 0) ∧
    DecodeStringBytes (mkState [0x01, 0x41, 0x00, 0x00] 0)
      = some ⟨advance (mkState [0x01, 0x41, 0x00, 0x00] 0) 4, [0x41], none⟩ ∧
    ((advance (mkState [0x01, 0x41, 0x00, 0x00] 0) 4).off
      - (mkState [0x01, 0x41, 0x00, 0x00] 0).off) % 4 = 0 :=
  ⟨by decide, by decide,
    (DecodeStringBytes_consumes_padding (mkState [0x01, 0x41, 0x00, 0x00] 0) (by decide)
      ⟨advance (mkState [0x01, 0x41, 0x00, 0x00] 0) 4, [0x41], none⟩ (by decide) rfl).elim
      (fun _ hb => hb.2.2.2.1)⟩

/-- C5.  On a well-formed state, with `vecTag m` the little-endian 32-bit value at
the cursor and `vecCount m` the signed 32-bit value after it, `DecodeVectorLong`
succeeds if and only if 8 bytes remain, the tag is the vector magic `0x1cb5c415`,
the count `c` is positive and `8 * c` further bytes remain.  It fails with the
wrong-constructor error when the tag differs and with the invalid-size error
when `c ≤ 0`.  On success it returns exactly `c` values, the `i`-th being the
little-endian 64-bit value at offset `8 + 8 * i` from the starting cursor, and
the cursor advances by `8 + 8 * c`, nothing else changing. -/
theorem DecodeVectorLong_spec (m : MTProto) (h : WF m) :
    ((∃ r, DecodeVectorLong m = some r ∧ r.err = none) ↔
      (m.off + 8 ≤ m.size ∧ vecTag m = vector ∧ 0 < vecCount m ∧
        m.off + 8 + 8 * vecCount m ≤ m.size)) ∧
    (m.off + 4 ≤ m.size → vecTag m ≠ vector →
      DecodeVectorLong m = some ⟨advance m 4, [], some Err.vectorConstructor⟩) ∧
    (m.off + 8 ≤ m.size → vecTag m = vector → vecCount m ≤ 0 →
      DecodeVectorLong m = some ⟨advance m 8, [], some Err.vectorSize⟩) ∧
    (m.off + 8 ≤ m.size → vecTag m = vector → 0 < vecCount m →
      m.off + 8 + 8 * vecCount m ≤ m.size →
      DecodeVectorLong m
        = some ⟨advance m (8 + 8 * vecCount m),
            longsAt m.buf (m.off.toNat + 8) (vecCount m).toNat, none⟩ ∧
      ((longsAt m.buf (m.off.toNat + 8) (vecCount m).toNat).length : Int) = vecCount m ∧
      ∀ i : Nat, i < (vecCount m).toNat →
        (longsAt m.buf (m.off.toNat + 8) (vecCount m).toNat)[i]?
          = some (littleEndian (bytesAt m.buf (m.off.toNat + 8 + 8 * i) 8))) := by
  have hok : m.off + 8 ≤ m.size → vecTag m = vector → 0 < vecCount m →
      m.off + 8 + 8 * vecCount m ≤ m.size →
      DecodeVectorLong m
        = some ⟨advance m (8 + 8 * vecCount m),
            longsAt m.buf (m.off.toNat + 8) (vecCount m).toNat, none⟩ := by
    intro h8 htag hc hfit
    have hwf : WF (advance m 8) := h.advance (by omega) h8
    have t : (m.off + 8).toNat = m.off.toNat + 8 := by have := h.1; omega
    rw [DecodeVectorLong_eq h, if_pos (by omega), if_neg (by simpa using htag), if_pos h8,
      if_neg (by omega)]
    generalize vecCount m = c at *
    have hcn : (c.toNat : Int) = c := by omega
    rw [vectorLoop_ok hwf c.toNat [] (by simp only [advance_off, advance_size]; omega),
      advance_advance, hcn, advance_buf, advance_off, t, List.nil_append]
  refine ⟨⟨?_, ?_⟩, ?_, ?_, ?_⟩
  · rintro ⟨r, hr, he⟩
    rw [DecodeVectorLong_eq h] at hr
    by_cases h4 : m.off + 4 ≤ m.size
    · rw [if_pos h4] at hr
      by_cases htag : vecTag m = vector
      · rw [if_neg (by simpa using htag)] at hr
        by_cases h8 : m.off + 8 ≤ m.size
        · rw [if_pos h8] at hr
          by_cases hc : vecCount m ≤ 0
          · rw [if_pos hc] at hr
            cases Option.some.inj hr
            exact Option.noConfusion he
          · rw [if_neg hc] at hr
            refine ⟨h8, htag, by omega, ?_⟩
            by_contra hfit
            have hwf : WF (advance m 8) := h.advance (by omega) h8
            obtain ⟨k, _, _, hv⟩ := vectorLoop_short hwf (vecCount m).toNat []
              (by simp only [advance_off, advance_size]; omega)
            rw [hr] at hv
            cases Option.some.inj hv
            exact Option.noConfusion he
        · rw [if_neg h8] at hr
          cases Option.some.inj hr
          exact Option.noConfusion he
      · rw [if_pos (by simpa using htag)] at hr
        cases Option.some.inj hr
        exact Option.noConfusion he
    · rw [if_neg h4] at hr
      cases Option.some.inj hr
      exact Option.noConfusion he
  · rintro ⟨h8, htag, hc, hfit⟩
    exact ⟨_, hok h8 htag hc hfit, rfl⟩
  · intro h4 htag
    rw [DecodeVectorLong_eq h, if_pos h4, if_pos (by simpa using htag)]
  · intro h8 htag hc
    rw [DecodeVectorLong_eq h, if_pos (by omega), if_neg (by simpa using htag), if_pos h8,
      if_pos hc]
  · intro h8 htag hc hfit
    refine ⟨hok h8 htag hc hfit, ?_, ?_⟩
    · rw [longsAt_length]; omega
    · intro i hi
      exact longsAt_getElem? _ _ _ _ hi

/-- C5 (instance).  The vector tag, the count 2, then the 64-bit values 1 and 2
decode to `[1, 2]`, the cursor advancing by 24. -/
theorem DecodeVectorLong_spec_witness :
    WF (mkState [0x15, 0xc4, 0xb5, 0x1c, 2, 0, 0, 0, 1, 0, 0, 0, 0, 0, 0, 0,
      2, 0, 0, 0, 0, 0, 0, 0] 0) ∧
    DecodeVectorLong (mkState [0x15, 0xc4, 0xb5, 0x1c, 2, 0, 0, 0, 1, 0, 0, 0, 0, 0, 0, 0,
      2, 0, 0, 0, 0, 0, 0, 0] 0)
      = some ⟨advance (mkState [0x15, 0xc4, 0xb5, 0x1c, 2, 0, 0, 0, 1, 0, 0, 0, 0, 0, 0, 0,
          2, 0, 0, 0, 0, 0, 0, 0] 0) 24, [1, 2], none⟩ :=
  ⟨by decide,
    ((DecodeVectorLong_spec (mkState [0x15, 0xc4, 0xb5, 0x1c, 2, 0, 0, 0, 1, 0, 0, 0, 0, 0, 0, 0,
      2, 0, 0, 0, 0, 0, 0, 0] 0) (by decide)).2.2.2 (by decide) (by decide) (by decide)
      (by decide)).1.trans (by decide)⟩

/-- C6.  On a well-formed state `DecodeInt`, `DecodeUInt` and `DecodeLong` succeed
if and only if at least 4, 4 and 8 bytes remain after the cursor.  On success
they return the little-endian value of those bytes (`DecodeInt` wrapped to a
signed 32-bit value) and advance the cursor by 4, 4 and 8, changing nothing
else; on failure they return their short-buffer error and the state is
unchanged.  Consequently, when the bytes at the cursor are the little-endian
encoding of a value in range, that value is returned. -/
theorem fixed_width_decoders (m : MTProto) (h : WF m) :
    (DecodeInt m =
      if 4 ≤ m.size - m.off then
        some ⟨advance m 4, int32 (littleEndian (bytesAt m.buf m.off.toNat 4)), none⟩
      else some ⟨m, 0, some Err.shortInt⟩) ∧
    (DecodeUInt m =
      if 4 ≤ m.size - m.off then
        some ⟨advance m 4, littleEndian (bytesAt m.buf m.off.toNat 4), none⟩
      else some ⟨m, 0, some Err.shortUInt⟩) ∧
    (DecodeLong m =
      if 8 ≤ m.size - m.off then
        some ⟨advance m 8, littleEndian (bytesAt m.buf m.off.toNat 8), none⟩
      else some ⟨m, 0, some Err.shortLong⟩) ∧
    (∀ v : Int, -2147483648 ≤ v → v < 2147483648 →
      bytesAt m.buf m.off.toNat 4 = EncodeInt v →
      DecodeInt m = some ⟨advance m 4, v, none⟩) ∧
    (∀ v : Nat, v < 4294967296 →
      bytesAt m.buf m.off.toNat 4 = EncodeUInt v →
      DecodeUInt m = some ⟨advance m 4, v, none⟩) ∧
    (∀ v : Nat, v < 18446744073709551616 →
      bytesAt m.buf m.off.toNat 8 = EncodeLong v →
      DecodeLong m = some ⟨advance m 8, v, none⟩) := by
  have hlen : ∀ n : Nat, (bytesAt m.buf m.off.toNat n).length = n → (n : Int) ≤ m.size - m.off := by
    intro n hn
    obtain ⟨h1, h2, h3, h4⟩ := h
    unfold bytesAt at hn
    simp only [List.length_take, List.length_drop] at hn
    omega
  refine ⟨?_, ?_, ?_, ?_, ?_, ?_⟩
  · rw [DecodeInt_eq h]
    by_cases hc : m.off + 4 ≤ m.size
    · rw [if_pos hc, if_pos (by omega)]
    · rw [if_neg hc, if_neg (by omega)]
  · rw [DecodeUInt_eq h]
    by_cases hc : m.off + 4 ≤ m.size
    · rw [if_pos hc, if_pos (by omega)]
    · rw [if_neg hc, if_neg (by omega)]
  · rw [DecodeLong_eq h]
    by_cases hc : m.off + 8 ≤ m.size
    · rw [if_pos hc, if_pos (by omega)]
    · rw [if_neg hc, if_neg (by omega)]
  · intro v hlo hhi hb
    have hl := hlen 4 (by rw [hb]; exact encodeLE_length _ _)
    rw [DecodeInt_eq h, if_pos (by omega), hb]
    unfold EncodeInt
    rw [littleEndian_encodeLE]
    have : int32 (((v % 4294967296).toNat % 256 ^ 4 : Nat) : Int) = v := by
      unfold int32
      norm_num
      omega
    rw [this]
  · intro v hv hb
    have hl := hlen 4 (by rw [hb]; exact encodeLE_length _ _)
    rw [DecodeUInt_eq h, if_pos (by omega), hb]
    unfold EncodeUInt
    rw [littleEndian_encodeLE]
    have : v % 256 ^ 4 = v := by norm_num; omega
    rw [this]
  · intro v hv hb
    have hl := hlen 8 (by rw [hb]; exact encodeLE_length _ _)
    rw [DecodeLong_eq h, if_pos (by omega), hb]
    unfold EncodeLong
    rw [littleEndian_encodeLE]
    have : v % 256 ^ 8 = v := by norm_num; omega
    rw [this]

/-- C6 (instance).  The bytes `ff ff ff ff` are the encoding of the signed value
-1, and `DecodeInt` returns -1 on them. -/
theorem fixed_width_decoders_witness :
    WF (mkState [0xff, 0xff, 0xff, 0xff] 0) ∧
    EncodeInt (-1) = [0xff, 0xff, 0xff, 0xff] ∧
    DecodeInt (mkState [0xff, 0xff, 0xff, 0xff] 0)
      = some ⟨advance (mkState [0xff, 0xff, 0xff, 0xff] 0) 4, -1, none⟩ :=
  ⟨by decide, by decide,
    (fixed_width_decoders (mkState [0xff, 0xff, 0xff, 0xff] 0) (by decide)).2.2.2.1 (-1)
      (by decide) (by decide) (by decide)⟩

set_option maxRecDepth 100000 in
/-- C7 (evaluation at the failing input).  For the 580-byte message `longMessage`
on an unencrypted connection `SendPacket` writes 604 bytes: the header
`7f 96 00 00` (150 words) and the 600-byte payload.  `Read`, given these bytes
in one chunk, takes 150 as the frame length in bytes: it stores a 150-byte frame
and leaves 450 bytes of the payload on the connection. -/
theorem long_frame_length_read_as_bytes :
    (SendPacket (mkState [] 0) 1 longMessage).length = 604 ∧
    (SendPacket (mkState [] 0) 1 longMessage).take 4 = [0x7f, 0x96, 0, 0] ∧
    readLength [SendPacket (mkState [] 0) 1 longMessage]
      = (some 150, [(SendPacket (mkState [] 0) 1 longMessage).drop 4]) ∧
    (Read (mkState [] 0) [SendPacket (mkState [] 0) 1 longMessage]).map
        (fun r => (r.m.size, r.m.buf.length, r.val.flatten.length))
      = some (150, 150, 450) := by
  decide

set_option maxRecDepth 100000 in
/-- C8 (counterexample).  Two received frames longer than 8 bytes whose
`authKeyId` is zero and whose `messageId` is 2, so `messageId mod 4` is 2.  The
16-byte frame `shortEvenIdFrame` ends before the `bodyLength` field: `Read` fails
with the short-buffer error of `DecodeInt` (line 214).  The 24-byte frame
`mismatchedEvenIdFrame` declares the `bodyLength` 5 where the frame length minus
20 is 4: `Read` fails with the length-mismatch error.  In neither case is the
invalid-message-id error returned. -/
theorem even_message_id_not_reported :
    receive (mkState [] 0) [[4] ++ shortEvenIdFrame]
      = (received (mkState [] 0) shortEvenIdFrame, [[]], none) ∧
    8 < shortEvenIdFrame.length ∧ frameAuthKeyId shortEvenIdFrame = 0 ∧
    frameMessageId shortEvenIdFrame % 4 = 2 ∧
    Read (mkState [] 0) [[4] ++ shortEvenIdFrame]
      = some ⟨headerRead (mkState [] 0) shortEvenIdFrame 16 2, [[]], some Err.shortInt⟩ ∧
    receive (mkState [] 0) [[6] ++ mismatchedEvenIdFrame]
      = (received (mkState [] 0) mismatchedEvenIdFrame, [[]], none) ∧
    8 < mismatchedEvenIdFrame.length ∧ frameAuthKeyId mismatchedEvenIdFrame = 0 ∧
    frameMessageId mismatchedEvenIdFrame % 4 = 2 ∧
    frameBodyLength mismatchedEvenIdFrame = 5 ∧
    Read (mkState [] 0) [[6] ++ mismatchedEvenIdFrame]
      = some ⟨headerRead (mkState [] 0) mismatchedEvenIdFrame 20 2, [[]],
          some (Err.lengthMismatch 5 4)⟩ ∧
    Err.shortInt ≠ Err.invalidMessageId 2 ∧
    Err.lengthMismatch 5 4 ≠ Err.invalidMessageId 2 := by
  decide

/-- C8 (amended).  Let `frame` be the frame `Read` received, that is the bytes it
stored in the buffer, whatever the chunks in which the connection delivered
them; let it be longer than 8 bytes with `authKeyId` zero.  If the frame is
shorter than 16 bytes `Read` fails with the short-buffer error of `DecodeLong`,
and if it has 16 to 19 bytes with the short-buffer error of `DecodeInt`.
Otherwise: if the declared `bodyLength` differs from the frame length minus 20,
`Read` fails with the length-mismatch error; if it agrees and `messageId mod 4`
is 0 or 2, `Read` fails with the invalid-message-id error.  In all these cases
the state returned is the one after the header fields were read, so `data`,
`level` and `seqNo` are those before the call and nothing was decoded.  If the
frame has at least 20 bytes and both checks pass (`messageId mod 4` is 1 or 3),
the result of `Read` is the result of `DecodePacket` on the bytes after the
header. -/
theorem Read_header_checks (m : MTProto) (conn rest : Conn) (frame : List Byte)
    (hrecv : receive m conn = (received m frame, rest, none)) (h8 : 8 < frame.length)
    (hauth : frameAuthKeyId frame = 0) :
    (frame.length < 16 →
      Read m conn = some ⟨headerRead m frame 8 0, rest, some Err.shortLong⟩) ∧
    (16 ≤ frame.length → frame.length < 20 →
      Read m conn
        = some ⟨headerRead m frame 16 (frameMessageId frame), rest, some Err.shortInt⟩) ∧
    (20 ≤ frame.length → frameBodyLength frame ≠ (frame.length : Int) - 20 →
      Read m conn
        = some ⟨headerRead m frame 20 (frameMessageId frame), rest,
            some (Err.lengthMismatch (frameBodyLength frame) ((frame.length : Int) - 20))⟩) ∧
    (20 ≤ frame.length → frameBodyLength frame = (frame.length : Int) - 20 →
      frameMessageId frame % 4 = 0 ∨ frameMessageId frame % 4 = 2 →
      Read m conn
        = some ⟨headerRead m frame 20 (frameMessageId frame), rest,
            some (Err.invalidMessageId (frameMessageId frame % 4))⟩) ∧
    (20 ≤ frame.length → frameBodyLength frame = (frame.length : Int) - 20 →
      frameMessageId frame % 4 = 1 ∨ frameMessageId frame % 4 = 3 →
      Read m conn
        = (DecodePacket (bodyStart m frame (frameMessageId frame))).map
            (fun rp => ⟨rp.m, rest, rp.err⟩)) ∧
    (20 ≤ frame.length →
      frameBodyLength frame ≠ (frame.length : Int) - 20 ∨ frameMessageId frame % 4 = 0
        ∨ frameMessageId frame % 4 = 2 →
      ∃ e, Read m conn
          = some ⟨headerRead m frame 20 (frameMessageId frame), rest, some e⟩ ∧
        (e = Err.lengthMismatch (frameBodyLength frame) ((frame.length : Int) - 20) ∨
          e = Err.invalidMessageId (frameMessageId frame % 4))) ∧
    (∀ (off : Int) (id : Nat),
      (headerRead m frame off id).data = m.data ∧
      (headerRead m frame off id).level = m.level ∧
      (headerRead m frame off id).seqNo = m.seqNo) := by
  have hlen := receive_frame_lt hrecv
  unfold frameAuthKeyId at hauth
  unfold frameBodyLength frameMessageId
  rw [Read_of_receive hrecv]
  refine ⟨?_, ?_, ?_, ?_, ?_, ?_, fun _ _ => ⟨rfl, rfl, rfl⟩⟩
  · intro h16
    rw [readFrame_short_header m frame rest h8 (by omega) hauth, if_neg (by omega)]
  · intro h16 h20
    rw [readFrame_short_header m frame rest h8 h20 hauth, if_pos h16]
  · intro h20 hne
    rw [readFrame_zero_auth m frame rest hlen h20 hauth, if_pos hne]
  · intro h20 heq hmod
    rw [readFrame_zero_auth m frame rest hlen h20 hauth, if_neg (not_not.mpr heq),
      if_pos (by omega)]
  · intro h20 heq hmod
    rw [readFrame_zero_auth m frame rest hlen h20 hauth, if_neg (not_not.mpr heq),
      if_neg (by omega)]
    cases DecodePacket (bodyStart m frame (littleEndian (bytesAt frame 8 8))) <;> rfl
  · intro h20 hbad
    rw [readFrame_zero_auth m frame rest hlen h20 hauth]
    by_cases hne : int32 (littleEndian (bytesAt frame 16 4)) ≠ (frame.length : Int) - 20
    · rw [if_pos hne]
      exact ⟨_, rfl, Or.inl rfl⟩
    · rw [if_neg hne, if_pos (by rcases hbad with h | h | h <;> first | exact absurd h hne | omega)]
      exact ⟨_, rfl, Or.inr rfl⟩

set_option maxRecDepth 100000 in
/-- C8 (instance).  The 24-byte frame `evenIdFrame` (authKeyId 0, messageId 2,
bodyLength 4) behind the one-byte header `06`, delivered in chunks of 1, 10 and
14 bytes: `Read` stores the frame in two reads, the length check passes, and
`Read` fails with the invalid-message-id error for the remainder 2. -/
theorem Read_header_checks_witness :
    receive (mkState [] 0) [[6], evenIdFrame.take 10, evenIdFrame.drop 10]
      = (received (mkState [] 0) evenIdFrame, [[]], none) ∧
    frameAuthKeyId evenIdFrame = 0 ∧
    Read (mkState [] 0) [[6], evenIdFrame.take 10, evenIdFrame.drop 10]
      = some ⟨headerRead (mkState [] 0) evenIdFrame 20 2, [[]],
          some (Err.invalidMessageId 2)⟩ :=
  ⟨by decide, by decide,
    ((Read_header_checks (mkState [] 0) [[6], evenIdFrame.take 10, evenIdFrame.drop 10] [[]]
      evenIdFrame (by decide) (by decide) (by decide)).2.2.2.1 (by decide) (by decide)
        (by decide)).trans (by decide)⟩

/-- C9.  Let `frame` be the frame `Read` received, that is the bytes it stored in
the buffer, whatever the chunks in which the connection delivered them.  When
the frame is exactly 4 bytes long, `Read` fails with the server-error value that
carries those 4 bytes; when it is at most 8 bytes long and not 4 (0 included),
`Read` fails with the too-small error carrying the length.  In both cases the
state returned is `m` with the frame in the buffer and the cursor at 0: nothing
was decoded, and `data`, `level`, `seqNo` and `messageId` are those before the
call. -/
theorem Read_small_frames (m : MTProto) (conn rest : Conn) (frame : List Byte)
    (hrecv : receive m conn = (received m frame, rest, none)) :
    (frame.length = 4 →
      Read m conn
        = some ⟨headerRead m frame 0 m.messageId, rest, some (Err.serverError frame)⟩) ∧
    (frame.length ≤ 8 → frame.length ≠ 4 →
      Read m conn
        = some ⟨headerRead m frame 0 m.messageId, rest,
            some (Err.tooSmall (frame.length : Int))⟩) ∧
    (headerRead m frame 0 m.messageId).data = m.data ∧
    (headerRead m frame 0 m.messageId).level = m.level ∧
    (headerRead m frame 0 m.messageId).seqNo = m.seqNo ∧
    (headerRead m frame 0 m.messageId).messageId = m.messageId ∧
    Err.serverError frame ≠ Err.tooSmall (frame.length : Int) := by
  rw [Read_of_receive hrecv]
  refine ⟨?_, ?_, rfl, rfl, rfl, rfl, ?_⟩
  · intro h4
    unfold readFrame
    rw [if_pos (by show ((frame.length : Nat) : Int) = 4; omega)]
    rfl
  · intro h8 h4
    unfold readFrame
    rw [if_neg (by show ¬ ((frame.length : Nat) : Int) = 4; omega),
      if_pos (by show ((frame.length : Nat) : Int) ≤ 8; omega)]
    rfl
  · intro h
    exact Err.noConfusion h

/-- C9 (instance).  The bytes `7f 04 00 00 ff ff ff ff` arrive in chunks of 1, 1
and 6 bytes.  The read of the three length bytes delivers the one byte `04`, the
count is not looked at (line 180), and the length is taken as 4; the frame `Read`
stores is the next four bytes `00 00 ff ff`, with `ff ff` left on the connection.
`Read` reports the server error carrying the four bytes it stored. -/
theorem Read_small_frames_witness :
    receive (mkState [] 0) [[0x7f], [0x04], [0, 0, 0xff, 0xff, 0xff, 0xff]]
      = (received (mkState [] 0) [0, 0, 0xff, 0xff], [[0xff, 0xff]], none) ∧
    Read (mkState [] 0) [[0x7f], [0x04], [0, 0, 0xff, 0xff, 0xff, 0xff]]
      = some ⟨headerRead (mkState [] 0) [0, 0, 0xff, 0xff] 0 0, [[0xff, 0xff]],
          some (Err.serverError [0, 0, 0xff, 0xff])⟩ :=
  ⟨by decide,
    (Read_small_frames (mkState [] 0) [[0x7f], [0x04], [0, 0, 0xff, 0xff, 0xff, 0xff]]
      [[0xff, 0xff]] [0, 0, 0xff, 0xff] (by decide)).1 rfl⟩

/-- C10.  Let `Read` succeed and leave the record `res` in `m.data`, the request
having been written without error, and let `N` be the nonce that was sent.
`Handshake` returns nil if and only if `res.nonce` equals `N` and the fingerprint
list contains 14101943622620965665.  If `res.nonce` differs from `N` it returns
the nonce-mismatch error, whatever the fingerprints are; if the nonce agrees and
the list does not contain the trusted fingerprint it returns the no-trusted-key
error.  The receiver state is in every case the one `Read` left. -/
theorem Handshake_validation (m : MTProto) (N : List Byte) (conn : Conn) (r : Ret Conn)
    (res : TL_resPQ) (hr : Read m conn = some r) (he : r.err = none)
    (hd : r.m.data = some res) :
    (Handshake m N none conn = some ⟨r.m, r.val, none⟩ ↔
      res.nonce = N ∧ 14101943622620965665 ∈ res.fingerprints) ∧
    (res.nonce ≠ N →
      Handshake m N none conn = some ⟨r.m, r.val, some Err.nonceMismatch⟩) ∧
    (res.nonce = N → 14101943622620965665 ∉ res.fingerprints →
      Handshake m N none conn = some ⟨r.m, r.val, some Err.noFingerprint⟩) := by
  have hH : Handshake m N none conn = some ⟨r.m, r.val, checkResPQ N (some res)⟩ := by
    unfold Handshake
    simp only [hr, he, hd]
  rw [hH]
  unfold checkResPQ
  simp only []
  by_cases hn : N = res.nonce
  · rw [if_neg (not_not.mpr hn)]
    by_cases hf : findFingerprint res.fingerprints = true
    · have hmem := (findFingerprint_iff res.fingerprints).mp hf
      rw [if_neg (by rw [hf]; exact Bool.noConfusion)]
      exact ⟨⟨fun _ => ⟨hn.symm, hmem⟩, fun _ => rfl⟩, fun h => absurd hn.symm h,
        fun _ h => absurd hmem h⟩
    · have hmem : 14101943622620965665 ∉ res.fingerprints :=
        fun h => hf ((findFingerprint_iff res.fingerprints).mpr h)
      have hfalse : findFingerprint res.fingerprints = false := by
        cases hx : findFingerprint res.fingerprints
        · rfl
        · exact absurd hx hf
      rw [if_pos hfalse]
      refine ⟨⟨fun h => ?_, fun h => absurd h.2 hmem⟩, fun h => absurd hn.symm h, fun _ _ => rfl⟩
      have h1 := Option.some.inj h
      have h2 := congrArg Ret.err h1
      exact Option.noConfusion h2
  · rw [if_pos hn]
    refine ⟨⟨fun h => ?_, fun h => absurd h.1.symm hn⟩, fun _ => rfl, fun h _ => absurd h.symm hn⟩
    have h1 := Option.some.inj h
    have h2 := congrArg Ret.err h1
    exact Option.noConfusion h2

set_option maxRecDepth 100000 in
/-- C10 (instance).  `Read` decodes `goodStream`, delivered in one chunk, into
`goodResPQ`, whose nonce is
sixteen bytes `11` and whose fingerprint list holds the trusted fingerprint;
`Handshake` with that nonce returns nil. -/
theorem Handshake_validation_witness :
    Read (mkState [] 0) [goodStream] = some goodRead ∧
    Handshake (mkState [] 0) (List.replicate 16 0x11) none [goodStream]
      = some ⟨goodRead.m, goodRead.val, none⟩ :=
  ⟨by decide,
    (Handshake_validation (mkState [] 0) (List.replicate 16 0x11) [goodStream] goodRead goodResPQ
      (by decide) rfl rfl).1.mpr ⟨by decide, by decide⟩⟩

/-- C11 (evaluation at the failing input).  `overflowState` is well formed, with
the cursor at 1 in an 8-byte buffer.  For the non-negative length
`9223372036854775807` the sum `off + size` of line 304 wraps to the most negative
`int`, the short-buffer test does not fire, and the call panics in `make`
instead of returning an error. -/
theorem DecodeBytes_panics_when_sum_overflows :
    WF overflowState ∧ (0 : Int) ≤ 9223372036854775807 ∧
    int64 (overflowState.off + 9223372036854775807) = -9223372036854775808 ∧
    DecodeBytes overflowState 9223372036854775807 = none := by
  decide

/-- C12.  On every state, `DecodeBigInt` panics exactly when `DecodeStringBytes`
does; otherwise it returns with the state and the error `DecodeStringBytes`
returns, so it succeeds exactly when `DecodeStringBytes` does and leaves the same
cursor.  On success its value is the non-negative integer `beValue` of the
string bytes, the sum of `b_i * 256 ^ (n - 1 - i)`; on failure it is the nil
pointer. -/
theorem DecodeBigInt_spec (m : MTProto) :
    (DecodeBigInt m = none ↔ DecodeStringBytes m = none) ∧
    ∀ r, DecodeStringBytes m = some r →
      ∃ v, DecodeBigInt m = some ⟨r.m, v, r.err⟩ ∧
        (r.err = none → v = some (beValue r.val : Int) ∧ (0 : Int) ≤ (beValue r.val : Int)) ∧
        (r.err ≠ none → v = none) := by
  unfold DecodeBigInt
  cases hs : DecodeStringBytes m with
  | none => exact ⟨⟨fun _ => rfl, fun _ => rfl⟩, fun r hr => Option.noConfusion hr⟩
  | some r0 =>
    obtain ⟨rm, rv, re⟩ := r0
    refine ⟨⟨?_, fun h => Option.noConfusion h⟩, ?_⟩
    · cases re <;> exact fun h => Option.noConfusion h
    · intro r hr
      cases Option.some.inj hr
      cases re with
      | none =>
        exact ⟨_, rfl, fun _ => ⟨by rw [SetBytes_zero_cons], Int.ofNat_nonneg _⟩,
          fun h => absurd rfl h⟩
      | some e =>
        exact ⟨_, rfl, fun h => Option.noConfusion h, fun _ => rfl⟩

/-- C12 (instance).  The string `01 ff 00 00` holds the one byte `ff`, whose high
bit is set; `DecodeBigInt` returns 255 and leaves the cursor where
`DecodeStringBytes` leaves it. -/
theorem DecodeBigInt_spec_witness :
    DecodeStringBytes (mkState [0x01, 0xff, 0x00, 0x00] 0)
      = some ⟨advance (mkState [0x01, 0xff, 0x00, 0x00] 0) 4, [0xff], none⟩ ∧
    DecodeBigInt (mkState [0x01, 0xff, 0x00, 0x00] 0)
      = some ⟨advance (mkState [0x01, 0xff, 0x00, 0x00] 0) 4, some 255, none⟩ := by
  refine ⟨by decide, ?_⟩
  obtain ⟨v, hv, h1, _⟩ := (DecodeBigInt_spec (mkState [0x01, 0xff, 0x00, 0x00] 0)).2
    ⟨advance (mkState [0x01, 0xff, 0x00, 0x00] 0) 4, [0xff], none⟩ (by decide)
  rw [hv, (h1 rfl).1]
  rfl

/-- C13.  On an unencrypted connection the bytes `SendPacket` writes for the body
`msg` are the length header followed by the payload, where the payload is 8 zero
bytes, `messageId` as 8 little-endian bytes, the length of `msg` as 4
little-endian bytes, and `msg`; the payload has `20 + len(msg)` bytes; and, `w`
being the payload length divided by 4 (below 2^24), the header is the single
byte `w` when `w < 127` and `7f` followed by `w` as 3 little-endian bytes
otherwise.  The framing step alone puts the same header in front of any payload
`x` of fewer than 2^24 words. -/
theorem SendPacket_bytes (m : MTProto) (messageId : Nat) (msg x : List Byte)
    (he : m.encrypted = false) (hw : (20 + msg.length) / 4 < 16777216)
    (hx : x.length / 4 < 16777216) :
    (List.replicate 8 (0 : Byte) ++ encodeLE 8 messageId ++ encodeLE 4 msg.length ++ msg).length
      = 20 + msg.length ∧
    SendPacket m messageId msg
      = wordHeader ((20 + msg.length) / 4)
        ++ (List.replicate 8 (0 : Byte) ++ encodeLE 8 messageId ++ encodeLE 4 msg.length
          ++ msg) ∧
    addLength x = wordHeader (x.length / 4) ++ x := by
  have hlen : (List.replicate 8 (0 : Byte) ++ encodeLE 8 messageId ++ encodeLE 4 msg.length
      ++ msg).length = 20 + msg.length := by
    simp only [List.length_append, List.length_replicate, encodeLE_length]
  refine ⟨hlen, ?_, addLength_eq x hx⟩
  unfold SendPacket
  simp only [he, Bool.false_eq_true, if_false]
  rw [EncodeLong_zero, EncodeInt_int32_small _ (by omega)]
  unfold EncodeLong
  rw [addLength_eq _ (by rw [hlen]; exact hw), hlen]

set_option maxRecDepth 100000 in
/-- C13 (instances).  The 580-byte message `longMessage` gives a 600-byte payload,
150 words, and the written bytes start with `7f 96 00 00`; a 4-byte payload, one
word, is framed with the leading byte `01`. -/
theorem SendPacket_bytes_witness :
    wordHeader ((20 + longMessage.length) / 4) = [0x7f, 0x96, 0x00, 0x00] ∧
    SendPacket (mkState [] 0) 1 longMessage
      = wordHeader ((20 + longMessage.length) / 4)
        ++ (List.replicate 8 (0 : Byte) ++ encodeLE 8 1 ++ encodeLE 4 longMessage.length
          ++ longMessage) ∧
    wordHeader (([0x0a, 0x0b, 0x0c, 0x0d] : List Byte).length / 4) = [0x01] ∧
    addLength [0x0a, 0x0b, 0x0c, 0x0d]
      = wordHeader (([0x0a, 0x0b, 0x0c, 0x0d] : List Byte).length / 4)
        ++ [0x0a, 0x0b, 0x0c, 0x0d] :=
  ⟨by decide,
    (SendPacket_bytes (mkState [] 0) 1 longMessage [0x0a, 0x0b, 0x0c, 0x0d] rfl (by decide)
      (by decide)).2.1,
    by decide,
    (SendPacket_bytes (mkState [] 0) 1 longMessage [0x0a, 0x0b, 0x0c, 0x0d] rfl (by decide)
      (by decide)).2.2⟩

/-- C14.  On a well-formed state with at least 4 bytes at the cursor whose
little-endian 32-bit tag is not `resPQ`, the only tag the dispatch of the source
handles, `DecodePacket` returns the unknown-constructor error for that tag.  The
state returned is the one after the tag was read and `level` incremented: the
previously decoded record in `data` is the same.  The tag is a 32-bit value, and
on 32-bit values both the error and its message text (`%08x`) are different for
different tags. -/
theorem DecodePacket_unknown_constructor (m : MTProto) (h : WF m)
    (h4 : m.off + 4 ≤ m.size) (htag : packetTag m ≠ resPQ) :
    DecodePacket m = some ⟨enter m, (), some (Err.unknownConstructor (packetTag m))⟩ ∧
    (enter m).data = m.data ∧
    packetTag m < 4294967296 ∧
    (∀ c d : Nat, Err.unknownConstructor c = Err.unknownConstructor d → c = d) ∧
    (∀ c d : Nat, c < 4294967296 → d < 4294967296 →
      unknownConstructorText c = unknownConstructorText d → c = d) := by
  refine ⟨?_, rfl, packetTag_lt m, fun c d hcd => Err.unknownConstructor.inj hcd,
    fun c d hc hd hcd => unknownConstructorText_inj hc hd hcd⟩
  rw [DecodePacket_eq h, if_pos h4, if_neg htag]

/-- C14 (instance).  The buffer `78 56 34 12`: the error carries the tag
`0x12345678`, and its text ends in `12345678`. -/
theorem DecodePacket_unknown_constructor_witness :
    WF (mkState unknownTagBuffer 0) ∧ packetTag (mkState unknownTagBuffer 0) = 0x12345678 ∧
    unknownConstructorText 0x12345678 = "Неизвестный конструктор: 12345678" ∧
    DecodePacket (mkState unknownTagBuffer 0)
      = some ⟨enter (mkState unknownTagBuffer 0), (),
          some (Err.unknownConstructor (packetTag (mkState unknownTagBuffer 0)))⟩ :=
  ⟨by decide, by decide, by decide,
    (DecodePacket_unknown_constructor (mkState unknownTagBuffer 0) (by decide) (by decide)
      (by decide)).1⟩

set_option maxRecDepth 100000 in
/-- C15 (evaluation at the failing input).  In the state with the cursor at 20 in
the 84-byte buffer `goodFrame`, 64 bytes remain; `DecodeBytes` called with the
length `9223372036854775800` does not return the short-buffer error: it panics. -/
theorem DecodeBytes_no_short_buffer_error_on_overflow :
    WF (mkState goodFrame 20) ∧
    (mkState goodFrame 20).size - (mkState goodFrame 20).off = 64 ∧
    (64 : Int) < 9223372036854775800 ∧
    DecodeBytes (mkState goodFrame 20) 9223372036854775800 = none ∧
    DecodeBytes (mkState goodFrame 20) 100
      = some ⟨mkState goodFrame 20, [], some Err.shortBytes⟩ := by
  decide

/-- C16 (counterexample).  On the four bytes of each of the tags
`server_DH_params_ok`, `server_DH_params_fail`, `server_DH_inner_data`,
`dh_gen_ok`, `dh_gen_retry` and `dh_gen_fail`, `DecodePacket` reports the tag as
an unknown constructor. -/
theorem DecodePacket_handshake_tags_unknown :
    (DecodePacket (mkState (EncodeUInt server_DH_params_ok) 0)).map (fun r => r.err)
      = some (some (Err.unknownConstructor 0xd0e8075c)) ∧
    (DecodePacket (mkState (EncodeUInt server_DH_params_fail) 0)).map (fun r => r.err)
      = some (some (Err.unknownConstructor 0x79cb045d)) ∧
    (DecodePacket (mkState (EncodeUInt server_DH_inner_data) 0)).map (fun r => r.err)
      = some (some (Err.unknownConstructor 0xb5890dba)) ∧
    (DecodePacket (mkState (EncodeUInt dh_gen_ok) 0)).map (fun r => r.err)
      = some (some (Err.unknownConstructor 0x3bcbf734)) ∧
    (DecodePacket (mkState (EncodeUInt dh_gen_retry) 0)).map (fun r => r.err)
      = some (some (Err.unknownConstructor 0x46dc1fb9)) ∧
    (DecodePacket (mkState (EncodeUInt dh_gen_fail) 0)).map (fun r => r.err)
      = some (some (Err.unknownConstructor 0xa69dae02)) := by
  decide

/-- C16 (amended).  On a well-formed state with at least 4 bytes at the cursor:
for the tag `resPQ` `DecodePacket` runs the field-decode sequence, stores a record
and never reports an unknown constructor; for each of the tags
`server_DH_params_ok`, `server_DH_params_fail`, `server_DH_inner_data`,
`dh_gen_ok`, `dh_gen_retry` and `dh_gen_fail` it returns the unknown-constructor
error carrying the tag and stores nothing. -/
theorem DecodePacket_dispatch (m : MTProto) (h : WF m) (h4 : m.off + 4 ≤ m.size) :
    (packetTag m = resPQ →
      ∃ r d, DecodePacket m = some r ∧ r.m.data = some d ∧
        ∀ c, r.err ≠ some (Err.unknownConstructor c)) ∧
    (packetTag m = server_DH_params_ok ∨ packetTag m = server_DH_params_fail ∨
        packetTag m = server_DH_inner_data ∨ packetTag m = dh_gen_ok ∨
        packetTag m = dh_gen_retry ∨ packetTag m = dh_gen_fail →
      DecodePacket m = some ⟨enter m, (), some (Err.unknownConstructor (packetTag m))⟩ ∧
      (enter m).data = m.data) := by
  constructor
  · intro htag
    obtain ⟨rn, rs, rp, ⟨fm, fv, fe⟩, _, _, _, hrf, _, _, sp, _, hD⟩ :=
      DecodePacket_resPQ h h4 htag
    have herr := DecodeVectorLong_err sp.1 hrf
    cases fe with
    | none => exact ⟨_, _, hD, rfl, fun c hc => Option.noConfusion hc⟩
    | some e =>
      refine ⟨_, _, hD, rfl, fun c hc => ?_⟩
      have he : e = Err.unknownConstructor c := Option.some.inj hc
      subst he
      rcases herr with h0 | h0 | h0 | h0 | h0 | h0
      · exact Option.noConfusion h0
      all_goals exact Err.noConfusion (Option.some.inj h0)
  · intro htag
    have hne : packetTag m ≠ resPQ := by
      rcases htag with h0 | h0 | h0 | h0 | h0 | h0 <;> rw [h0] <;> decide
    rw [DecodePacket_eq h, if_pos h4, if_neg hne]
    exact ⟨rfl, rfl⟩

set_option maxRecDepth 100000 in
/-- C16 (instance).  The record `goodRecord` carries the tag `resPQ`, and
`DecodePacket` stores the record it holds. -/
theorem DecodePacket_dispatch_witness :
    WF (mkState goodRecord 0) ∧ packetTag (mkState goodRecord 0) = resPQ ∧
    ∃ r d, DecodePacket (mkState goodRecord 0) = some r ∧ r.m.data = some d ∧
      ∀ c, r.err ≠ some (Err.unknownConstructor c) :=
  ⟨by decide, by decide,
    (DecodePacket_dispatch (mkState goodRecord 0) (by decide) (by decide)).1 (by decide)⟩

/-- C17.  On a well-formed state, if `DecodePacket` returns nil then the tag at the
cursor is `resPQ`, both fixed-width nonce decodes succeeded, and the stored
record has as `nonce` the 16 bytes right after the tag, as `server_nonce` the 16
bytes after those, and a non-empty fingerprint list.  So a failure of either
nonce decode always makes the final vector decode fail. -/
theorem DecodePacket_success_fields (m : MTProto) (h : WF m) (r : Ret Unit)
    (hr : DecodePacket m = some r) (he : r.err = none) :
    packetTag m = resPQ ∧
    (∃ rn rs, DecodeBytes (enter m) 16 = some rn ∧ rn.err = none ∧
      DecodeBytes rn.m 16 = some rs ∧ rs.err = none) ∧
    ∃ d, r.m.data = some d ∧
      d.nonce = bytesAt m.buf (m.off.toNat + 4) 16 ∧ d.nonce.length = 16 ∧
      d.server_nonce = bytesAt m.buf (m.off.toNat + 20) 16 ∧ d.server_nonce.length = 16 ∧
      d.fingerprints ≠ [] := by
  have h4 : m.off + 4 ≤ m.size := by
    by_contra hc
    rw [DecodePacket_eq h, if_neg hc] at hr
    cases Option.some.inj hr
    exact Option.noConfusion he
  have htag : packetTag m = resPQ := by
    by_contra hc
    rw [DecodePacket_eq h, if_pos h4, if_neg hc] at hr
    cases Option.some.inj hr
    exact Option.noConfusion he
  obtain ⟨rn, rs, rp, ⟨fm, fv, fe⟩, hrn, hrs, hrp, hrf, sn, ss, sp, sf, hD⟩ :=
    DecodePacket_resPQ h h4 htag
  have hse := enter_step h h4
  rw [hD] at hr
  cases fe with
  | some e =>
    cases Option.some.inj hr
    exact Option.noConfusion he
  | none =>
    cases Option.some.inj hr
    -- the vector decode succeeded, so 16 bytes were left for it
    obtain ⟨v16, hfv⟩ := DecodeVectorLong_success sp.1 hrf rfl
    have h16 : rp.m.off + 16 ≤ m.size := by
      have e1 := sp.2.2.2
      have e2 := ss.2.2.2
      have e3 := sn.2.2.2
      have e4 := hse.2.2.2
      omega
    have o0 : (enter m).off = m.off + 4 := rfl
    have s0 : (enter m).size = m.size := rfl
    have b0 : (enter m).buf = m.buf := rfl
    have hm0 := h.1
    have hlen := h.2.2.1
    have q1 := sn.2.2.2
    have q2 := ss.2.2.2
    have q3 := ss.2.1
    have q4 := sp.2.1
    -- first nonce
    have en := DecodeBytes_eq_int hse.1 (n := 16) (by omega) (by have := hse.1.off_le; omega)
    rw [hrn] at en
    have hn16 : (enter m).off + 16 ≤ (enter m).size := by
      by_contra hc
      rw [if_neg hc] at en
      have hm : rn.m = enter m := congrArg Ret.m (Option.some.inj en)
      rw [hm] at q3
      omega
    rw [if_pos hn16] at en
    have hnm : rn.m = advance (enter m) 16 := congrArg Ret.m (Option.some.inj en)
    have hnv : rn.val = bytesAt (enter m).buf (enter m).off.toNat (16 : Int).toNat :=
      congrArg Ret.val (Option.some.inj en)
    have hne : rn.err = none := congrArg Ret.err (Option.some.inj en)
    have hon : rn.m.off = m.off + 20 := by rw [hnm, advance_off, o0]; omega
    have bn : rn.m.buf = m.buf := by rw [hnm, advance_buf, b0]
    -- second nonce
    have es := DecodeBytes_eq_int sn.1 (n := 16) (by omega) (by have := sn.1.off_le; omega)
    rw [hrs] at es
    have hs16 : rn.m.off + 16 ≤ rn.m.size := by
      by_contra hc
      rw [if_neg hc] at es
      have hm : rs.m = rn.m := by
        have := congrArg Ret.m (Option.some.inj es)
        exact this
      rw [hm] at q4
      rw [hon] at hc
      omega
    rw [if_pos hs16] at es
    have hsv : rs.val = bytesAt rn.m.buf rn.m.off.toNat (16 : Int).toNat :=
      congrArg Ret.val (Option.some.inj es)
    have hse' : rs.err = none := congrArg Ret.err (Option.some.inj es)
    have t4 : (m.off + 4).toNat = m.off.toNat + 4 := by omega
    have t20 : (m.off + 20).toNat = m.off.toNat + 20 := by omega
    have t16 : (16 : Int).toNat = 16 := rfl
    rw [o0, b0, t4, t16] at hnv
    rw [hon, bn, t20, t16] at hsv
    refine ⟨htag, ⟨rn, rs, hrn, hne, hrs, hse'⟩, _, rfl, ?_, ?_, ?_, ?_, ?_⟩
    · exact hnv
    · show rn.val.length = 16
      rw [hnv]
      exact bytesAt_length (by omega)
    · exact hsv
    · show rs.val.length = 16
      rw [hsv]
      exact bytesAt_length (by omega)
    · exact hfv

set_option maxRecDepth 100000 in
/-- C17 (instance).  `DecodePacket` succeeds on `goodRecord`, whose tag is `resPQ`,
and stores `goodResPQ`, with two 16-byte nonces and one fingerprint. -/
theorem DecodePacket_success_fields_witness :
    WF (mkState goodRecord 0) ∧ DecodePacket (mkState goodRecord 0) = some goodDecoded ∧
    packetTag (mkState goodRecord 0) = resPQ :=
  ⟨by decide, by decide,
    (DecodePacket_success_fields (mkState goodRecord 0) (by decide) goodDecoded (by decide)
      rfl).1⟩

/-- C18.  On a well-formed state (`0 ≤ off ≤ size = len(buf)`) each of `DecodeInt`,
`DecodeUInt`, `DecodeLong`, `DecodeStringBytes`, `DecodeBigInt`,
`DecodeVectorLong` and `DecodePacket` returns, with or without an error, in a
state that is well formed again, whose cursor has not moved backwards and whose
`buf` and `size` are the same.  `DecodeBytes(n)` with `n ≥ 0` does so whenever
it returns, and it returns whenever `off + n` is in the range of `int`. -/
theorem cursor_invariant (m : MTProto) (h : WF m) :
    (∃ r, DecodeInt m = some r ∧ CursorStep m r.m) ∧
    (∃ r, DecodeUInt m = some r ∧ CursorStep m r.m) ∧
    (∃ r, DecodeLong m = some r ∧ CursorStep m r.m) ∧
    (∀ n : Int, 0 ≤ n →
      (∀ r, DecodeBytes m n = some r → CursorStep m r.m) ∧
      (m.off + n < 9223372036854775808 → ∃ r, DecodeBytes m n = some r)) ∧
    (∃ r, DecodeStringBytes m = some r ∧ CursorStep m r.m) ∧
    (∃ r, DecodeBigInt m = some r ∧ CursorStep m r.m) ∧
    (∃ r, DecodeVectorLong m = some r ∧ CursorStep m r.m) ∧
    (∃ r, DecodePacket m = some r ∧ CursorStep m r.m) := by
  refine ⟨DecodeInt_step h, DecodeUInt_step h, DecodeLong_step h, ?_, DecodeStringBytes_step h,
    DecodeBigInt_step h, DecodeVectorLong_step h, DecodePacket_step h⟩
  intro n h0
  refine ⟨fun r hr => DecodeBytes_step_of_some h h0 hr, fun hn => ?_⟩
  obtain ⟨r, hr, _⟩ := DecodeBytes_step h h0 hn
  exact ⟨r, hr⟩

/-- C18 (instance).  On the buffer `c8 00 00 00` `DecodeStringBytes` fails after
the length byte, the cursor having moved from 0 to 1 inside the 4-byte buffer. -/
theorem cursor_invariant_witness :
    WF (mkState [200, 0, 0, 0] 0) ∧
    DecodeStringBytes (mkState [200, 0, 0, 0] 0)
      = some ⟨advance (mkState [200, 0, 0, 0] 0) 1, [], some Err.shortStringSize⟩ ∧
    ∃ r, DecodeStringBytes (mkState [200, 0, 0, 0] 0) = some r ∧
      CursorStep (mkState [200, 0, 0, 0] 0) r.m :=
  ⟨by decide, by decide, (cursor_invariant (mkState [200, 0, 0, 0] 0) (by decide)).2.2.2.2.1⟩

/-- C19.  Let `frame` be the frame `Read` received, that is the bytes it stored
in the buffer, whatever the chunks in which the connection delivered them.  When
the frame is longer than 8 bytes and its first 8 bytes (`authKeyId`) are not all
zero, `Read` returns nil with the cursor after those 8 bytes and decodes nothing:
`messageId`, `seqNo`, `level` and `data` are those before the call, so the record
in `data` is that of an earlier frame, or none. -/
theorem Read_nonzero_auth_key (m : MTProto) (conn rest : Conn) (frame : List Byte)
    (hrecv : receive m conn = (received m frame, rest, none)) (h8 : 8 < frame.length)
    (hauth : frameAuthKeyId frame ≠ 0) :
    Read m conn = some ⟨headerRead m frame 8 m.messageId, rest, none⟩ ∧
    (headerRead m frame 8 m.messageId).messageId = m.messageId ∧
    (headerRead m frame 8 m.messageId).seqNo = m.seqNo ∧
    (headerRead m frame 8 m.messageId).level = m.level ∧
    (headerRead m frame 8 m.messageId).data = m.data := by
  unfold frameAuthKeyId at hauth
  rw [Read_of_receive hrecv,
    readFrame_nonzero_auth m frame rest (receive_frame_lt hrecv) h8 hauth]
  exact ⟨rfl, rfl, rfl, rfl, rfl⟩

/-- C19 (instance).  The 12-byte frame `encryptedFrame`, whose `authKeyId` is 1,
behind the header `03`, delivered in chunks of 1, 5 and 7 bytes: `Read` stores
the frame in two reads and returns nil, and `data` is still empty. -/
theorem Read_nonzero_auth_key_witness :
    receive (mkState [] 0) [[3], encryptedFrame.take 5, encryptedFrame.drop 5]
      = (received (mkState [] 0) encryptedFrame, [[]], none) ∧
    frameAuthKeyId encryptedFrame ≠ 0 ∧
    Read (mkState [] 0) [[3], encryptedFrame.take 5, encryptedFrame.drop 5]
      = some ⟨headerRead (mkState [] 0) encryptedFrame 8 (mkState [] 0).messageId, [[]],
          none⟩ ∧
    (headerRead (mkState [] 0) encryptedFrame 8 (mkState [] 0).messageId).data = none :=
  ⟨by decide, by decide,
    (Read_nonzero_auth_key (mkState [] 0) [[3], encryptedFrame.take 5, encryptedFrame.drop 5]
      [[]] encryptedFrame (by decide) (by decide) (by decide)).1, rfl⟩

/-- C20.  Let two well-formed states have the same cursor and the same size, and
let their buffers agree at every position that is not a padding position of the
string at the cursor of the first.  Then `DecodeStringBytes` gives the same
outcome on both: both return, with the same string, the same error (or both
none) and the same cursor. -/
theorem DecodeStringBytes_ignores_padding (m1 m2 : MTProto) (h1 : WF m1) (h2 : WF m2)
    (hoff : m1.off = m2.off) (hsize : m1.size = m2.size)
    (hagree : ∀ i, ¬ PaddingPos m1 i → m1.buf[i]? = m2.buf[i]?) :
    (∃ r1 r2, DecodeStringBytes m1 = some r1 ∧ DecodeStringBytes m2 = some r2) ∧
    (DecodeStringBytes m1).map (fun r => (r.val, r.err, r.m.off))
      = (DecodeStringBytes m2).map (fun r => (r.val, r.err, r.m.off)) := by
  refine ⟨?_, ?_⟩
  · obtain ⟨r1, hr1, _⟩ := DecodeStringBytes_step h1
    obtain ⟨r2, hr2, _⟩ := DecodeStringBytes_step h2
    exact ⟨r1, r2, hr1, hr2⟩
  by_cases hlt : m1.off < m1.size
  · obtain ⟨b, hb⟩ := getElem?_of_lt h1 hlt
    have hpos := strHdr_pos b
    have hnp : ∀ i, i < m1.off.toNat + strHdr b + strLen m1.buf m1.off.toNat b →
        m1.buf[i]? = m2.buf[i]? := by
      intro i hi
      apply hagree
      rintro ⟨b', hb', hlo, _⟩
      rw [hb] at hb'
      cases Option.some.inj hb'
      omega
    have hb2 : m2.buf[m2.off.toNat]? = some b := by
      rw [← hoff, ← hnp _ (by omega)]
      exact hb
    have hlen : strLen m2.buf m2.off.toNat b = strLen m1.buf m1.off.toNat b := by
      rw [← hoff]
      unfold strLen
      by_cases he : b.val = 254
      · rw [if_pos he, if_pos he]
        congr 1
        symm
        apply bytesAt_congr
        intro j hj
        apply hnp
        have : strHdr b = 4 := by simp [strHdr, he]
        omega
      · rw [if_neg he, if_neg he]
    have hdata : bytesAt m2.buf (m2.off.toNat + strHdr b) (strLen m1.buf m1.off.toNat b)
        = bytesAt m1.buf (m1.off.toNat + strHdr b) (strLen m1.buf m1.off.toNat b) := by
      rw [← hoff]
      symm
      apply bytesAt_congr
      intro j hj
      apply hnp
      omega
    rw [DecodeStringBytes_nf h1 hb, DecodeStringBytes_nf h2 hb2, hlen, hdata, ← hoff, ← hsize]
    split_ifs <;> simp only [Option.map_some', advance_off, hoff]
  · rw [DecodeStringBytes_empty h1 (by omega), DecodeStringBytes_empty h2 (by omega)]
    simp only [Option.map_some', hoff]

/-- C20 (instance).  The buffers `01 41 00 00` and `01 41 ff ff` differ only at the
two padding positions; both decode to the string `41` with the cursor at 4, so
non-zero padding is accepted and two different buffers give one result. -/
theorem DecodeStringBytes_ignores_padding_witness :
    zeroPadded.buf ≠ onesPadded.buf ∧
    (DecodeStringBytes onesPadded).map (fun r => (r.val, r.err, r.m.off))
      = some ([0x41], none, 4) ∧
    (DecodeStringBytes zeroPadded).map (fun r => (r.val, r.err, r.m.off))
      = (DecodeStringBytes onesPadded).map (fun r => (r.val, r.err, r.m.off)) :=
  ⟨by decide, by decide,
    (DecodeStringBytes_ignores_padding zeroPadded onesPadded (by decide) (by decide) rfl rfl
      (fun i hi =>
        match i, hi with
        | 0, _ => rfl
        | 1, _ => rfl
        | 2, hi => absurd ⟨1, by decide, by decide, by decide⟩ hi
        | 3, hi => absurd ⟨1, by decide, by decide, by decide⟩ hi
        | _ + 4, _ => rfl)).2⟩

end Mtproto
